import Mathlib

/-!
Verification of the awgur GUI core: the ribbon constraint solver
(`adjust_cells`), the point-in-box hit test, and the ribbon / layer-stack
event-routing protocol, shallowly embedded over exact rationals.
-/

namespace Awgur

/-- Two-dimensional vector (the `Vector2` of the source), with exact
rational components in place of `f32`. -/
structure Vector2 where
  X : ℚ
  Y : ℚ
deriving DecidableEq, Repr

/-- Mouse button press state (winit `ElementState`). -/
inductive ElementState where
  | Pressed
  | Released
deriving DecidableEq, Repr

/-- Mouse button (winit `MouseButton`). -/
inductive MouseButton where
  | Left
  | Right
  | Middle
  | Other (n : Nat)
deriving DecidableEq, Repr

/-- Panel event (`PanelEvent` in `gui/panel.rs`). -/
inductive PanelEvent where
  | Resized (size : Vector2)
  | CursorMoved (pos : Vector2)
  | MouseInput (in_slot : Bool) (state : ElementState) (button : MouseButton)
  | Empty
deriving DecidableEq, Repr

/-- Ribbon orientation (`RibbonOrientation` in `gui/ribbon.rs`). -/
inductive RibbonOrientation where
  | Stack
  | Horizontal
  | Vertical
deriving DecidableEq, Repr

/-- Per-cell layout constraint (`CellLimit` in `gui/ribbon.rs`). -/
structure CellLimit where
  ratio : ℚ
  min_size : ℚ
  max_size : Option ℚ
  content_ratio : Vector2
deriving DecidableEq, Repr

/-- Point-in-box test, translated verbatim from `is_point_in_box` in
`gui/mod.rs`, including the comparison of `point.Y` against `offset.X`
in the third conjunct exactly as the source writes it. -/
def is_point_in_box (point offset size : Vector2) : Bool :=
  decide (point.X ≥ offset.X)
    && decide (point.X ≤ offset.X + size.X)
    && decide (point.Y ≥ offset.X)
    && decide (point.Y ≤ offset.Y + size.Y)

/-- Translated-point variant from `gui/mod.rs`: the box sits at the origin. -/
def is_translated_point_in_box (point size : Vector2) : Bool :=
  is_point_in_box point ⟨0, 0⟩ size

/-- Modelled from the spec: the point-in-box test as §4.4 states it,
inclusive on both ends of both axes, each axis compared against its own
offset component. -/
def spec_point_in_box (point offset size : Vector2) : Bool :=
  decide (point.X ≥ offset.X)
    && decide (point.X ≤ offset.X + size.X)
    && decide (point.Y ≥ offset.Y)
    && decide (point.Y ≤ offset.Y + size.Y)

/-- One solver cell during relaxation: its limit, its lock flag
(`lock[i]` in the source) and its current result value (`result[i]`). -/
structure Ent where
  limit : CellLimit
  locked : Bool
  value : ℚ
deriving DecidableEq, Repr

/-- Result state of one relaxation pass of `adjust_cells`. -/
structure PassOut where
  cells : List Ent
  sumRatio : ℚ
  newTarget : ℚ
  allLock : Bool
deriving DecidableEq, Repr

/-- The share computation for one unlocked cell, the body of the `for`
loop in `adjust_cells` (`gui/ribbon.rs`): the tentative share
`target * ratio / sum_ratio` is clamped and locked (`true` component) at
`min_size` when the share is at most `min_size`, and afterwards clamped
and locked at `max_size` when the (possibly already clamped) share
exceeds it. -/
def cellShare (target s : ℚ) (c : CellLimit) : ℚ × Bool :=
  let share0 := target * c.ratio / s
  let p1 : ℚ × Bool :=
    if share0 ≤ c.min_size then (c.min_size, true) else (share0, false)
  match c.max_size with
  | some m => if m < p1.1 then (m, true) else p1
  | none => p1

/-- One relaxation pass, the body of the `loop` in `adjust_cells`
(`gui/ribbon.rs`): the cells are visited in order; an unlocked cell gets
the clamped share of `cellShare`; a newly locked cell's share is
subtracted from `new_target` and its ratio from `sum_ratio` immediately,
before the next cell is visited. -/
def adjustPass (target : ℚ) :
    List Ent → ℚ → ℚ → Bool → PassOut
  | [], s, nt, al => ⟨[], s, nt, al⟩
  | e :: rest, s, nt, al =>
    if e.locked then
      let o := adjustPass target rest s nt al
      ⟨e :: o.cells, o.sumRatio, o.newTarget, o.allLock⟩
    else
      let p := cellShare target s e.limit
      if p.2 then
        let o := adjustPass target rest (s - e.limit.ratio) (nt - p.1) al
        ⟨⟨e.limit, true, p.1⟩ :: o.cells, o.sumRatio, o.newTarget, o.allLock⟩
      else
        let o := adjustPass target rest s nt false
        ⟨⟨e.limit, false, p.1⟩ :: o.cells, o.sumRatio, o.newTarget, o.allLock⟩

/-- The relaxation loop of `adjust_cells`. `fuel` bounds the number of
passes; `none` means the fuel ran out (the termination theorem below shows
`limits.length + 1` passes always suffice). The loop breaks when a pass
locks every cell or leaves the remaining target unchanged; otherwise the
target is clamped at zero and the loop repeats. -/
def adjustLoop : Nat → ℚ → ℚ → List Ent → Option (List ℚ)
  | 0, _, _, _ => none
  | fuel + 1, target, s, cells =>
    let o := adjustPass target cells s target true
    if o.allLock = true ∨ o.newTarget = target then
      some (o.cells.map Ent.value)
    else
      adjustLoop fuel (if 0 < o.newTarget then o.newTarget else 0) o.sumRatio o.cells

/-- The constraint solver `adjust_cells` from `gui/ribbon.rs`, over exact
rationals. The `assert!(c.ratio > 0.)` that the source evaluates while
summing the ratios is modelled by returning `none` (a panic) when some
ratio is not positive; `none` is otherwise only possible through fuel
exhaustion, which the termination theorem rules out. -/
def adjust_cells (limits : List CellLimit) (target : ℚ) : Option (List ℚ) :=
  if limits.all fun c => decide (0 < c.ratio) then
    adjustLoop (limits.length + 1) target ((limits.map CellLimit.ratio).sum)
      (limits.map fun c => ⟨c, false, 0⟩)
  else
    none

/-- Sum of the ratios of the currently unlocked cells. -/
def unlockedSum (cells : List Ent) : ℚ :=
  (cells.map fun e => if e.locked then 0 else e.limit.ratio).sum

/-- Sum of the values currently held by locked cells. -/
def lockedValueSum (cells : List Ent) : ℚ :=
  (cells.map fun e => if e.locked then e.value else 0).sum

/-- Modelled from the spec: one reference relaxation pass in which every
tentative share is computed from the pass-start remaining target AND the
pass-start unlocked-ratio sum `s`, so that cells locking within the pass
have no effect on the shares of later cells of the same pass. -/
def refPass (target s : ℚ) : List Ent → List Ent
  | [] => []
  | e :: rest =>
    if e.locked then e :: refPass target s rest
    else
      let p := cellShare target s e.limit
      ⟨e.limit, p.2, p.1⟩ :: refPass target s rest

/-- Modelled from the spec: the loop of the reference formulation, which
subtracts locked sizes and locked ratios only between passes. -/
def refLoop : Nat → ℚ → List Ent → Option (List ℚ)
  | 0, _, _ => none
  | fuel + 1, target, cells =>
    let cells' := refPass target (unlockedSum cells) cells
    let newTarget := target - (lockedValueSum cells' - lockedValueSum cells)
    if cells'.all Ent.locked = true ∨ newTarget = target then
      some (cells'.map Ent.value)
    else
      refLoop fuel (if 0 < newTarget then newTarget else 0) cells'

/-- Modelled from the spec: the solver as the order-independence sentence
describes it, with both the remaining target and the unlocked-ratio sum
held fixed across one pass. -/
def adjust_cells_ref (limits : List CellLimit) (target : ℚ) : Option (List ℚ) :=
  if limits.all fun c => decide (0 < c.ratio) then
    refLoop (limits.length + 1) target (limits.map fun c => ⟨c, false, 0⟩)
  else
    none

/-- One relaxation pass written with the unlocked-ratio pool recomputed at
every cell from the current lock state: `acc` is the ratio sum of the
already-visited cells that stayed unlocked, and the pool for the current
cell is `acc` plus the unlocked-ratio sum of the cells not yet visited.
The `sumRatio` field of the output is the final accumulated pool. -/
def poolPass (target : ℚ) : List Ent → ℚ → ℚ → Bool → PassOut
  | [], acc, nt, al => ⟨[], acc, nt, al⟩
  | e :: rest, acc, nt, al =>
    if e.locked then
      let o := poolPass target rest acc nt al
      ⟨e :: o.cells, o.sumRatio, o.newTarget, o.allLock⟩
    else
      let p := cellShare target (acc + (e.limit.ratio + unlockedSum rest)) e.limit
      if p.2 then
        let o := poolPass target rest acc (nt - p.1) al
        ⟨⟨e.limit, true, p.1⟩ :: o.cells, o.sumRatio, o.newTarget, o.allLock⟩
      else
        let o := poolPass target rest (acc + e.limit.ratio) nt false
        ⟨⟨e.limit, false, p.1⟩ :: o.cells, o.sumRatio, o.newTarget, o.allLock⟩

/-- The relaxation loop driven by `poolPass`. -/
def adjustLoopPool : Nat → ℚ → List Ent → Option (List ℚ)
  | 0, _, _ => none
  | fuel + 1, target, cells =>
    let o := poolPass target cells 0 target true
    if o.allLock = true ∨ o.newTarget = target then
      some (o.cells.map Ent.value)
    else
      adjustLoopPool fuel (if 0 < o.newTarget then o.newTarget else 0) o.cells

/-- The solver with the unlocked-ratio pool recomputed from the lock flags
instead of carried: the common characterization of what `adjust_cells`
computes within a pass. -/
def adjust_cells_pool (limits : List CellLimit) (target : ℚ) : Option (List ℚ) :=
  if limits.all fun c => decide (0 < c.ratio) then
    adjustLoopPool (limits.length + 1) target (limits.map fun c => ⟨c, false, 0⟩)
  else
    none

/-- One ribbon cell (`Cell` in `gui/ribbon.rs`): its limit and the offset
and size of its container visual. -/
structure Cell where
  limit : CellLimit
  offset : Vector2
  size : Vector2
deriving DecidableEq, Repr

/-- A ribbon (`Ribbon` in `gui/ribbon.rs`): orientation, the size of its
own container visual, its cells, and the last recorded cursor position. -/
structure Ribbon where
  orientation : RibbonOrientation
  size : Vector2
  cells : List Cell
  mouse_pos : Option Vector2
deriving DecidableEq, Repr

/-- `Cell::translate_point`: subtract the cell container's offset. -/
def Cell.translate_point (cell : Cell) (p : Vector2) : Vector2 :=
  ⟨p.X - cell.offset.X, p.Y - cell.offset.Y⟩

/-- `Cell::is_translated_point_in_cell`: test the translated point against
the cell container's size. -/
def Cell.is_translated_point_in_cell (cell : Cell) (p : Vector2) : Bool :=
  is_translated_point_in_box p cell.size

/-- The placement loop of `Ribbon::resize_cells` for the non-stack
orientations: cells are laid out contiguously from position 0 along the
main axis, the secondary axis spanning the container's full extent. -/
def placeCells (hor : Bool) (size : Vector2) : ℚ → List Cell → List ℚ → List Cell
  | _, [], _ => []
  | _, _ :: _, [] => []
  | pos, c :: cs, sz :: szs =>
    { c with
        offset := if hor then ⟨pos, 0⟩ else ⟨0, pos⟩,
        size := if hor then ⟨sz, size.Y⟩ else ⟨size.X, sz⟩ }
      :: placeCells hor size (pos + sz) cs szs

/-- `Ribbon::resize_cells`: set the ribbon container's own size, then
either center every cell's content (stack orientation) or solve the main
axis with `adjust_cells` and place the cells contiguously; `none` models
the panic of the solver's ratio assertion. -/
def Ribbon.resize_cells (r : Ribbon) (size : Vector2) : Option Ribbon :=
  if r.orientation = RibbonOrientation.Stack then
    some { r with
      size := size,
      cells := r.cells.map fun cell =>
        let cs : Vector2 :=
          ⟨size.X * cell.limit.content_ratio.X, size.Y * cell.limit.content_ratio.Y⟩
        { cell with
            offset := ⟨(size.X - cs.X) / 2, (size.Y - cs.Y) / 2⟩,
            size := cs } }
  else
    match adjust_cells (r.cells.map Cell.limit)
        (if r.orientation = RibbonOrientation.Horizontal then size.X else size.Y) with
    | none => none
    | some sizes =>
      some { r with
        size := size,
        cells := placeCells (decide (r.orientation = RibbonOrientation.Horizontal))
          size 0 r.cells sizes }

/-- `Ribbon::translate_panel_event_resized`: apply the new layout, then
send every cell's panel a `Resized` event carrying that cell's own
post-layout container size. Deliveries are listed as (cell index, event). -/
def Ribbon.translate_panel_event_resized (r : Ribbon) (size : Vector2) :
    Option (Ribbon × List (Nat × PanelEvent)) :=
  match r.resize_cells size with
  | none => none
  | some r' =>
    some (r', r'.cells.enum.map fun p => (p.1, PanelEvent.Resized p.2.size))

/-- `Ribbon::translate_slot_event_mouse_input`: when a cursor position is
recorded, every cell's panel receives a `MouseInput` whose `in_slot` flag
says whether the translated position lies within that cell; with no
recorded position nothing is delivered. -/
def Ribbon.translate_slot_event_mouse_input (r : Ribbon)
    (state : ElementState) (button : MouseButton) : List (Nat × PanelEvent) :=
  match r.mouse_pos with
  | none => []
  | some mp =>
    r.cells.enum.map fun p =>
      (p.1, PanelEvent.MouseInput
        (p.2.is_translated_point_in_cell (p.2.translate_point mp)) state button)

/-- `Ribbon::translate_slot_event_cursor_moved`: record the position, then
broadcast it translated into each cell's local coordinates. -/
def Ribbon.translate_slot_event_cursor_moved (r : Ribbon) (mp : Vector2) :
    Ribbon × List (Nat × PanelEvent) :=
  ({ r with mouse_pos := some mp },
    r.cells.enum.map fun p => (p.1, PanelEvent.CursorMoved (p.2.translate_point mp)))

/-- `Ribbon::translate_panel_event_default`: broadcast unchanged. -/
def Ribbon.translate_panel_event_default (r : Ribbon) (ev : PanelEvent) :
    List (Nat × PanelEvent) :=
  r.cells.enum.map fun p => (p.1, ev)

/-- `Ribbon`'s `EventSink::on_event`: route the event by kind, then re-emit
the unmodified event on the ribbon's own stream. The result is the updated
ribbon, the child deliveries, and the re-emitted events; `none` models an
error propagating out before the re-emission. -/
def Ribbon.on_event (r : Ribbon) (ev : PanelEvent) :
    Option (Ribbon × List (Nat × PanelEvent) × List PanelEvent) :=
  match ev with
  | .Resized size =>
    match r.translate_panel_event_resized size with
    | none => none
    | some (r', ds) => some (r', ds, [ev])
  | .MouseInput _ st btn =>
    some (r, r.translate_slot_event_mouse_input st btn, [ev])
  | .CursorMoved mp =>
    let p := r.translate_slot_event_cursor_moved mp
    some (p.1, p.2, [ev])
  | .Empty =>
    some (r, r.translate_panel_event_default ev, [ev])

/-- A layer stack (`LayerStack` in `gui/layer_stack.rs`): the size of its
container visual and its layers in insertion order, each layer named by
its panel identity. -/
structure LayerStack where
  size : Vector2
  layers : List Nat
deriving DecidableEq, Repr

/-- `LayerStack::push_panel`: append the new layer. -/
def LayerStack.push_panel (ls : LayerStack) (p : Nat) : LayerStack :=
  { ls with layers := ls.layers ++ [p] }

/-- `LayerStack::translate_event_to_all_layers`: broadcast unchanged. -/
def LayerStack.translate_event_to_all_layers (ls : LayerStack) (ev : PanelEvent) :
    List (Nat × PanelEvent) :=
  ls.layers.map fun p => (p, ev)

/-- `LayerStack::translate_event_to_top_layer`: forward to
`layers().first_mut()`, exactly as the source does — the head of the
layer list, which is the first-added layer. -/
def LayerStack.translate_event_to_top_layer (ls : LayerStack) (ev : PanelEvent) :
    List (Nat × PanelEvent) :=
  match ls.layers with
  | [] => []
  | p :: _ => [(p, ev)]

/-- `LayerStack::translate_event`: set the container size and broadcast on
`Resized`, forward `MouseInput` through `translate_event_to_top_layer`,
broadcast everything else. -/
def LayerStack.translate_event (ls : LayerStack) (ev : PanelEvent) :
    LayerStack × List (Nat × PanelEvent) :=
  match ev with
  | .Resized size => ({ ls with size := size }, ls.translate_event_to_all_layers ev)
  | .MouseInput _ _ _ => (ls, ls.translate_event_to_top_layer ev)
  | _ => (ls, ls.translate_event_to_all_layers ev)

/-- `LayerStack`'s `EventSink::on_event`: route, then re-emit the
unmodified event on the stack's own stream. -/
def LayerStack.on_event (ls : LayerStack) (ev : PanelEvent) :
    LayerStack × List (Nat × PanelEvent) × List PanelEvent :=
  let p := ls.translate_event ev
  (p.1, p.2, [ev])

/-- Recognizer for `MouseInput` events. -/
def PanelEvent.isMouseInput : PanelEvent → Bool
  | .MouseInput _ _ _ => true
  | _ => false

/-- A horizontal ribbon of two abutting 10 by 10 cells with the cursor
recorded at (5,5), inside the first cell only. -/
def mouseRibbonExample : Ribbon :=
  ⟨RibbonOrientation.Horizontal, ⟨20, 10⟩,
    [⟨⟨1, 0, none, ⟨1, 1⟩⟩, ⟨0, 0⟩, ⟨10, 10⟩⟩,
     ⟨⟨1, 0, none, ⟨1, 1⟩⟩, ⟨10, 0⟩, ⟨10, 10⟩⟩],
    some ⟨5, 5⟩⟩

/-- C6: the source's `is_point_in_box` compares `point.Y` against
`offset.X` instead of `offset.Y`, so at point (6,2), offset (5,0),
size (10,10) it answers `false` although both coordinates lie inside the
inclusive box of the spec, whose own formulation answers `true`. -/
theorem is_point_in_box_y_against_offset_x :
    is_point_in_box ⟨6, 2⟩ ⟨5, 0⟩ ⟨10, 10⟩ = false ∧
      spec_point_in_box ⟨6, 2⟩ ⟨5, 0⟩ ⟨10, 10⟩ = true := by
  constructor <;> norm_num [is_point_in_box, spec_point_in_box]

/-- C5: a layer stack built by pushing panel 0 and then panel 1 forwards a
`MouseInput` to panel 0, the first-added (bottom) layer, although the
most-recently-added layer is panel 1. -/
theorem layer_stack_mouse_input_goes_to_first_layer :
    (((LayerStack.push_panel (LayerStack.push_panel ⟨⟨0, 0⟩, []⟩ 0) 1).on_event
        (PanelEvent.MouseInput true ElementState.Pressed MouseButton.Left)).2.1
      = [(0, PanelEvent.MouseInput true ElementState.Pressed MouseButton.Left)]) ∧
    (LayerStack.push_panel (LayerStack.push_panel ⟨⟨0, 0⟩, []⟩ 0) 1).layers.getLast?
      = some 1 ∧ (0 : Nat) ≠ 1 := by
  refine ⟨rfl, rfl, by decide⟩

/-- C4 counterexample: with the cursor recorded at (5,5), inside the first
cell and outside the second, dispatching a `MouseInput` delivers a
`MouseInput` event to BOTH cells (the second with `in_slot = false`), so
it is not delivered to exactly one child. -/
theorem ribbon_mouse_input_reaches_every_cell :
    (mouseRibbonExample.on_event
        (PanelEvent.MouseInput true ElementState.Pressed MouseButton.Left)
      = some (mouseRibbonExample,
          [(0, PanelEvent.MouseInput true ElementState.Pressed MouseButton.Left),
           (1, PanelEvent.MouseInput false ElementState.Pressed MouseButton.Left)],
          [PanelEvent.MouseInput true ElementState.Pressed MouseButton.Left])) ∧
    (mouseRibbonExample.cells.countP fun c =>
        c.is_translated_point_in_cell (c.translate_point ⟨5, 5⟩)) = 1 := by
  constructor <;>
    norm_num [mouseRibbonExample, Ribbon.on_event, Ribbon.translate_slot_event_mouse_input,
      Cell.is_translated_point_in_cell, Cell.translate_point, is_translated_point_in_box,
      is_point_in_box, List.countP, List.countP.go, List.enum, List.enumFrom]

/-- C1 counterexample: both cells have positive ratio and the minimum
sizes sum to 10 which is at most the target 100, yet the solver returns
[5, 50]: the sizes sum to 55, not 100, and the first size 5 lies below
its cell's `min_size` 10 (that cell's `max_size` 5 is smaller than its
`min_size`). -/
theorem adjust_cells_sum_and_bounds_fail :
    adjust_cells [⟨1, 10, some 5, ⟨1, 1⟩⟩, ⟨1, 0, some 50, ⟨1, 1⟩⟩] 100
        = some [5, 50] ∧
      (([⟨1, 10, some 5, ⟨1, 1⟩⟩, ⟨1, 0, some 50, ⟨1, 1⟩⟩] :
          List CellLimit).map CellLimit.min_size).sum ≤ 100 ∧
      ((5 : ℚ) + (50 + 0) ≠ 100) ∧ ¬((10 : ℚ) ≤ 5) := by
  refine ⟨by norm_num [adjust_cells, adjustLoop, adjustPass, cellShare], by norm_num, by norm_num,
    by norm_num⟩

/-- C2 counterexample: minimum sizes sum to 200, beyond the target 100,
yet the first cell is sized at its `max_size` 30 instead of its
`min_size` 0: the result is not the list of minimum sizes. -/
theorem adjust_cells_floor_violated_by_max_lock :
    adjust_cells [⟨1, 0, some 30, ⟨1, 1⟩⟩, ⟨1, 200, none, ⟨1, 1⟩⟩] 100
        = some [30, 200] ∧
      100 < (([⟨1, 0, some 30, ⟨1, 1⟩⟩, ⟨1, 200, none, ⟨1, 1⟩⟩] :
          List CellLimit).map CellLimit.min_size).sum ∧
      some [30, 200]
        ≠ some (([⟨1, 0, some 30, ⟨1, 1⟩⟩, ⟨1, 200, none, ⟨1, 1⟩⟩] :
          List CellLimit).map CellLimit.min_size) := by
  refine ⟨by norm_num [adjust_cells, adjustLoop, adjustPass, cellShare], by norm_num, by norm_num⟩

/-- C3 counterexample: on three cells (ratio 10 with max 5; ratio 1 with
min 20; ratio 1 unconstrained) at target 100 the solver returns
[5, 95/2, 95/2] while the reference formulation that holds the
unlocked-ratio sum fixed across a pass returns [5, 20, 75]: the first
cell's lock, which happens mid-pass, enlarges the share of the second
cell in the same pass and keeps it above its minimum. -/
theorem adjust_cells_differs_from_pass_start_reference :
    adjust_cells [⟨10, 0, some 5, ⟨1, 1⟩⟩, ⟨1, 20, none, ⟨1, 1⟩⟩,
        ⟨1, 0, none, ⟨1, 1⟩⟩] 100 = some [5, 95 / 2, 95 / 2] ∧
      adjust_cells_ref [⟨10, 0, some 5, ⟨1, 1⟩⟩, ⟨1, 20, none, ⟨1, 1⟩⟩,
        ⟨1, 0, none, ⟨1, 1⟩⟩] 100 = some [5, 20, 75] ∧
      adjust_cells [⟨10, 0, some 5, ⟨1, 1⟩⟩, ⟨1, 20, none, ⟨1, 1⟩⟩,
          ⟨1, 0, none, ⟨1, 1⟩⟩] 100
        ≠ adjust_cells_ref [⟨10, 0, some 5, ⟨1, 1⟩⟩, ⟨1, 20, none, ⟨1, 1⟩⟩,
          ⟨1, 0, none, ⟨1, 1⟩⟩] 100 := by
  have h1 : adjust_cells [⟨10, 0, some 5, ⟨1, 1⟩⟩, ⟨1, 20, none, ⟨1, 1⟩⟩,
      ⟨1, 0, none, ⟨1, 1⟩⟩] 100 = some [5, 95 / 2, 95 / 2] := by
    norm_num [adjust_cells, adjustLoop, adjustPass, cellShare]
  have h2 : adjust_cells_ref [⟨10, 0, some 5, ⟨1, 1⟩⟩, ⟨1, 20, none, ⟨1, 1⟩⟩,
      ⟨1, 0, none, ⟨1, 1⟩⟩] 100 = some [5, 20, 75] := by
    norm_num [adjust_cells_ref, refLoop, refPass, cellShare, unlockedSum, lockedValueSum]
  refine ⟨h1, h2, ?_⟩
  rw [h1, h2]
  norm_num

theorem cellShare_locked (t s : ℚ) (c : CellLimit) (h : (cellShare t s c).2 = true) :
    (cellShare t s c).1 = c.min_size ∨
      ∃ m, c.max_size = some m ∧ (cellShare t s c).1 = m := by
  obtain ⟨ratio, min_size, max_size, cr⟩ := c
  cases max_size with
  | none =>
    simp only [cellShare] at h ⊢
    split_ifs at h ⊢ <;> simp_all
  | some m =>
    simp only [cellShare] at h ⊢
    split_ifs at h ⊢ <;> simp_all

theorem cellShare_unlocked (t s : ℚ) (c : CellLimit) (h : (cellShare t s c).2 = false) :
    (cellShare t s c).1 = t * c.ratio / s ∧ c.min_size < (cellShare t s c).1 ∧
      ∀ m ∈ c.max_size, (cellShare t s c).1 ≤ m := by
  obtain ⟨ratio, min_size, max_size, cr⟩ := c
  cases max_size with
  | none =>
    simp only [cellShare] at h ⊢
    split_ifs at h ⊢ <;> simp_all <;> linarith
  | some m =>
    simp only [cellShare] at h ⊢
    split_ifs at h ⊢ <;> simp_all <;> linarith

theorem cellShare_none_lock_iff (t s : ℚ) (c : CellLimit) (h : c.max_size = none) :
    (cellShare t s c).2 = true ↔ t * c.ratio / s ≤ c.min_size := by
  obtain ⟨ratio, min_size, max_size, cr⟩ := c
  cases max_size with
  | none =>
    simp only [cellShare]
    split_ifs with h1 <;> simp [h1]
  | some m => simp at h

theorem cellShare_none_value (t s : ℚ) (c : CellLimit) (h : c.max_size = none) :
    (cellShare t s c).1
      = if t * c.ratio / s ≤ c.min_size then c.min_size else t * c.ratio / s := by
  obtain ⟨ratio, min_size, max_size, cr⟩ := c
  cases max_size with
  | none =>
    simp only [cellShare]
    split_ifs with h1 <;> simp [h1]
  | some m => simp at h

theorem adjustPass_limits (target : ℚ) (cells : List Ent) (s nt : ℚ) (al : Bool) :
    (adjustPass target cells s nt al).cells.map Ent.limit = cells.map Ent.limit := by
  induction cells generalizing s nt al with
  | nil => rfl
  | cons e rest ih =>
    by_cases hl : e.locked = true
    · simp [adjustPass, hl, ih]
    · by_cases hp : (cellShare target s e.limit).2 = true
      · simp [adjustPass, hl, hp, ih]
      · simp [adjustPass, hl, hp, ih]

theorem adjustPass_length (target : ℚ) (cells : List Ent) (s nt : ℚ) (al : Bool) :
    (adjustPass target cells s nt al).cells.length = cells.length := by
  have h := congrArg List.length (adjustPass_limits target cells s nt al)
  simpa using h

theorem adjustPass_sumRatio (target : ℚ) (cells : List Ent) (s nt : ℚ) (al : Bool) :
    (adjustPass target cells s nt al).sumRatio
      = s - (unlockedSum cells - unlockedSum (adjustPass target cells s nt al).cells) := by
  induction cells generalizing s nt al with
  | nil => simp [adjustPass]
  | cons e rest ih =>
    by_cases hl : e.locked = true
    · simp only [adjustPass, hl, if_true, unlockedSum, List.map_cons, List.sum_cons]
      rw [ih]
      simp [unlockedSum, hl]
      try ring
    · by_cases hp : (cellShare target s e.limit).2 = true
      · simp only [adjustPass, hl, hp, if_true, if_false, Bool.false_eq_true,
          unlockedSum, List.map_cons, List.sum_cons]
        rw [ih]
        simp [unlockedSum, hl]
        try ring
      · simp only [adjustPass, hl, hp, if_false, Bool.false_eq_true,
          unlockedSum, List.map_cons, List.sum_cons]
        rw [ih]
        simp [unlockedSum, hl]
        try ring

theorem adjustPass_newTarget (target : ℚ) (cells : List Ent) (s nt : ℚ) (al : Bool) :
    (adjustPass target cells s nt al).newTarget
      = nt - (lockedValueSum (adjustPass target cells s nt al).cells
          - lockedValueSum cells) := by
  induction cells generalizing s nt al with
  | nil => simp [adjustPass]
  | cons e rest ih =>
    by_cases hl : e.locked = true
    · simp only [adjustPass, hl, if_true, lockedValueSum, List.map_cons, List.sum_cons]
      rw [ih]
      simp [lockedValueSum, hl]
      try ring
    · by_cases hp : (cellShare target s e.limit).2 = true
      · simp only [adjustPass, hl, hp, if_true, if_false, Bool.false_eq_true,
          lockedValueSum, List.map_cons, List.sum_cons]
        rw [ih]
        simp [lockedValueSum, hl]
        try ring
      · simp only [adjustPass, hl, hp, if_false, Bool.false_eq_true,
          lockedValueSum, List.map_cons, List.sum_cons]
        rw [ih]
        simp [lockedValueSum, hl]
        try ring

theorem adjustPass_allLock (target : ℚ) (cells : List Ent) (s nt : ℚ) (al : Bool) :
    (adjustPass target cells s nt al).allLock
      = (al && (adjustPass target cells s nt al).cells.all Ent.locked) := by
  induction cells generalizing s nt al with
  | nil => simp [adjustPass]
  | cons e rest ih =>
    by_cases hl : e.locked = true
    · simp [adjustPass, hl, ih, Bool.and_assoc, Ent.locked]
    · by_cases hp : (cellShare target s e.limit).2 = true
      · simp [adjustPass, hl, hp, ih, Bool.and_assoc]
      · simp [adjustPass, hl, hp, ih]

/-- Number of cells still unlocked. -/
def unlockedCount (cells : List Ent) : Nat :=
  cells.countP fun e => !e.locked

theorem adjustPass_unlockedCount_le (target : ℚ) (cells : List Ent) (s nt : ℚ) (al : Bool) :
    unlockedCount (adjustPass target cells s nt al).cells ≤ unlockedCount cells := by
  induction cells generalizing s nt al with
  | nil => simp [adjustPass, unlockedCount]
  | cons e rest ih =>
    by_cases hl : e.locked = true
    · have h := ih s nt al
      simp only [adjustPass, hl, if_true, unlockedCount, List.countP_cons] at *
      omega
    · by_cases hp : (cellShare target s e.limit).2 = true
      · have h := ih (s - e.limit.ratio) (nt - (cellShare target s e.limit).1) al
        simp only [adjustPass, hl, hp, if_true, if_false, Bool.false_eq_true,
          unlockedCount, List.countP_cons] at *
        simp [hl, hp] at *
        omega
      · have h := ih s nt false
        simp only [adjustPass, hl, hp, if_false, Bool.false_eq_true,
          unlockedCount, List.countP_cons] at *
        simp [hl, hp] at *
        omega

theorem adjustPass_newTarget_ne (target : ℚ) (cells : List Ent) (s nt : ℚ) (al : Bool)
    (h : (adjustPass target cells s nt al).newTarget ≠ nt) :
    unlockedCount (adjustPass target cells s nt al).cells < unlockedCount cells := by
  induction cells generalizing s nt al with
  | nil => simp [adjustPass] at h
  | cons e rest ih =>
    by_cases hl : e.locked = true
    · have hx := ih s nt al
      simp only [adjustPass, hl, if_true, unlockedCount, List.countP_cons] at *
      simp [hl] at *
      exact hx h
    · by_cases hp : (cellShare target s e.limit).2 = true
      · have hle := adjustPass_unlockedCount_le target rest (s - e.limit.ratio)
          (nt - (cellShare target s e.limit).1) al
        simp only [adjustPass, hl, hp, if_true, if_false, Bool.false_eq_true,
          unlockedCount, List.countP_cons] at *
        simp [hl, hp] at *
        omega
      · simp only [adjustPass, hl, hp, if_false, Bool.false_eq_true] at h ⊢
        have hx := ih s nt false h
        simp only [unlockedCount, List.countP_cons] at *
        simp [hl, hp]
        omega

theorem adjustLoop_isSome (fuel : Nat) :
    ∀ (target s : ℚ) (cells : List Ent), unlockedCount cells < fuel →
      (adjustLoop fuel target s cells).isSome = true := by
  induction fuel with
  | zero => intro _ _ _ h; omega
  | succ f ih =>
    intro target s cells h
    simp only [adjustLoop]
    split
    · simp
    · rename_i hcond
      have hne : (adjustPass target cells s target true).newTarget ≠ target := by
        intro hc
        exact hcond (Or.inr hc)
      have hlt := adjustPass_newTarget_ne target cells s target true hne
      exact ih _ _ _ (by omega)

theorem adjustLoop_length (fuel : Nat) :
    ∀ (target s : ℚ) (cells : List Ent) (r : List ℚ),
      adjustLoop fuel target s cells = some r → r.length = cells.length := by
  induction fuel with
  | zero => intro _ _ _ _ h; simp [adjustLoop] at h
  | succ f ih =>
    intro target s cells r h
    simp only [adjustLoop] at h
    split at h
    · have hlen := adjustPass_length target cells s target true
      simp only [Option.some.injEq] at h
      subst h
      simpa using hlen
    · have := ih _ _ _ _ h
      rw [this, adjustPass_length]

/-- C10: whenever every ratio is strictly positive the ratio assertion of
`adjust_cells` never fires, the relaxation loop terminates within its
pass budget, and a list of the same length as the input is returned;
with a cell of ratio 0 the assertion fails and the function panics
(modelled as `none`) instead of returning. -/
theorem adjust_cells_total_when_ratios_positive :
    (∀ (limits : List CellLimit) (target : ℚ), (∀ c ∈ limits, 0 < c.ratio) →
      ∃ r, adjust_cells limits target = some r ∧ r.length = limits.length) ∧
    adjust_cells [⟨0, 0, none, ⟨1, 1⟩⟩] 100 = none := by
  constructor
  · intro limits target hpos
    have hall : (limits.all fun c => decide (0 < c.ratio)) = true := by
      simp only [List.all_eq_true, decide_eq_true_eq]
      exact hpos
    have hcount : unlockedCount (limits.map fun c => ⟨c, false, 0⟩) < limits.length + 1 := by
      simp only [unlockedCount, List.countP_map]
      have : limits.countP ((fun e : Ent => !e.locked) ∘ fun c => ⟨c, false, 0⟩)
          ≤ limits.length := List.countP_le_length _
      omega
    have hsome := adjustLoop_isSome (limits.length + 1) target
      ((limits.map CellLimit.ratio).sum) (limits.map fun c => ⟨c, false, 0⟩) hcount
    obtain ⟨r, hr⟩ := Option.isSome_iff_exists.mp hsome
    refine ⟨r, ?_, ?_⟩
    · unfold adjust_cells
      rw [if_pos hall]
      exact hr
    · have := adjustLoop_length (limits.length + 1) target
        ((limits.map CellLimit.ratio).sum) (limits.map fun c => ⟨c, false, 0⟩) r hr
      simpa using this
  · norm_num [adjust_cells]

/-- Witness for C10 at a concrete input: one cell of ratio 2 and minimum
size 3 at target 7. -/
theorem adjust_cells_total_when_ratios_positive_witness :
    ∃ r, adjust_cells [⟨2, 3, none, ⟨1, 1⟩⟩] 7 = some r ∧ r.length = 1 :=
  adjust_cells_total_when_ratios_positive.1 [⟨2, 3, none, ⟨1, 1⟩⟩] 7 (by
    intro c hc
    simp only [List.mem_singleton] at hc
    subst hc
    norm_num)

/-- Sum of the values currently held by unlocked cells. -/
def unlockedValueSum (cells : List Ent) : ℚ :=
  (cells.map fun e => if e.locked then 0 else e.value).sum

/-- Sum of the minimum sizes of the currently unlocked cells. -/
def unlockedMinSum (cells : List Ent) : ℚ :=
  (cells.map fun e => if e.locked then 0 else e.limit.min_size).sum

theorem valueSum_split (cells : List Ent) :
    (cells.map Ent.value).sum = lockedValueSum cells + unlockedValueSum cells := by
  induction cells with
  | nil => simp [lockedValueSum, unlockedValueSum]
  | cons e rest ih =>
    simp only [lockedValueSum, unlockedValueSum, List.map_cons, List.sum_cons] at *
    rw [ih]
    by_cases hl : e.locked = true
    · simp [hl]
      try ring
    · simp [hl]
      try ring

theorem adjustPass_limit_mem (target : ℚ) (cells : List Ent) (s nt : ℚ) (al : Bool) :
    ∀ e' ∈ (adjustPass target cells s nt al).cells, ∃ e ∈ cells, e'.limit = e.limit := by
  intro e' he'
  have h1 : e'.limit ∈ (adjustPass target cells s nt al).cells.map Ent.limit :=
    List.mem_map_of_mem Ent.limit he'
  rw [adjustPass_limits] at h1
  obtain ⟨e, he, heq⟩ := List.mem_map.mp h1
  exact ⟨e, he, heq.symm⟩

theorem adjustPass_bounds (target : ℚ) (cells : List Ent) (s nt : ℚ) (al : Bool)
    (hminmax : ∀ e ∈ cells, ∀ m ∈ e.limit.max_size, e.limit.min_size ≤ m)
    (hlocked : ∀ e ∈ cells, e.locked = true →
      e.limit.min_size ≤ e.value ∧ ∀ m ∈ e.limit.max_size, e.value ≤ m) :
    ∀ e' ∈ (adjustPass target cells s nt al).cells,
      (e'.locked = true →
        e'.limit.min_size ≤ e'.value ∧ ∀ m ∈ e'.limit.max_size, e'.value ≤ m) ∧
      (e'.locked = false →
        e'.limit.min_size < e'.value ∧ ∀ m ∈ e'.limit.max_size, e'.value ≤ m) := by
  induction cells generalizing s nt al with
  | nil => simp [adjustPass]
  | cons e rest ih =>
    have hminmax_e := hminmax e (List.mem_cons_self e rest)
    have hminmax_rest : ∀ x ∈ rest, ∀ m ∈ x.limit.max_size, x.limit.min_size ≤ m :=
      fun x hx => hminmax x (List.mem_cons_of_mem e hx)
    have hlocked_rest : ∀ x ∈ rest, x.locked = true →
        x.limit.min_size ≤ x.value ∧ ∀ m ∈ x.limit.max_size, x.value ≤ m :=
      fun x hx => hlocked x (List.mem_cons_of_mem e hx)
    by_cases hl : e.locked = true
    · simp only [adjustPass, hl, if_true]
      intro e' he'
      rcases List.mem_cons.mp he' with heq | hmem
      · rw [heq]
        refine ⟨fun _ => hlocked e (List.mem_cons_self e rest) hl, fun hc => ?_⟩
        rw [hc] at hl
        simp at hl
      · exact ih _ _ _ hminmax_rest hlocked_rest e' hmem
    · by_cases hp : (cellShare target s e.limit).2 = true
      · simp only [adjustPass, hl, hp, if_true, if_false, Bool.false_eq_true]
        intro e' he'
        rcases List.mem_cons.mp he' with heq | hmem
        · rw [heq]
          refine ⟨fun _ => ?_, fun hc => by simp at hc⟩
          simp only
          rcases cellShare_locked target s e.limit hp with hv | ⟨m, hm, hv⟩
          · constructor
            · simp [hv]
            · intro m' hm'
              simp only [hv]
              exact hminmax_e m' hm'
          · constructor
            · simp only [hv]
              exact hminmax_e m hm
            · intro m' hm'
              rw [hm] at hm'
              simp only [Option.mem_def, Option.some.injEq] at hm'
              simp [hv, hm']
        · exact ih _ _ _ hminmax_rest hlocked_rest e' hmem
      · simp only [adjustPass, hl, hp, if_false, Bool.false_eq_true]
        intro e' he'
        rcases List.mem_cons.mp he' with heq | hmem
        · rw [heq]
          refine ⟨fun hc => by simp at hc, fun _ => ?_⟩
          simp only
          have h := cellShare_unlocked target s e.limit (by simpa using hp)
          exact ⟨h.2.1, h.2.2⟩
        · exact ih _ _ _ hminmax_rest hlocked_rest e' hmem

/-- Each returned size lies within its cell's limits. -/
theorem adjustLoop_inLimit (fuel : Nat) :
    ∀ (target s : ℚ) (cells : List Ent) (r : List ℚ),
      (∀ e ∈ cells, ∀ m ∈ e.limit.max_size, e.limit.min_size ≤ m) →
      (∀ e ∈ cells, e.locked = true →
        e.limit.min_size ≤ e.value ∧ ∀ m ∈ e.limit.max_size, e.value ≤ m) →
      adjustLoop fuel target s cells = some r →
      List.Forall₂ (fun c v => c.min_size ≤ v ∧ ∀ m ∈ c.max_size, v ≤ m)
        (cells.map Ent.limit) r := by
  induction fuel with
  | zero => intro _ _ _ _ _ _ h; simp [adjustLoop] at h
  | succ f ih =>
    intro target s cells r hminmax hlocked h
    simp only [adjustLoop] at h
    have hbounds := adjustPass_bounds target cells s target true hminmax hlocked
    split at h
    · simp only [Option.some.injEq] at h
      subst h
      rw [← adjustPass_limits target cells s target true]
      rw [List.forall₂_map_left_iff, List.forall₂_map_right_iff]
      rw [List.forall₂_same]
      intro e' he'
      have hb := hbounds e' he'
      by_cases hl : e'.locked = true
      · exact hb.1 hl
      · have h2 := hb.2 (by simpa using hl)
        exact ⟨le_of_lt h2.1, h2.2⟩
    · have hminmax2 : ∀ e' ∈ (adjustPass target cells s target true).cells,
          ∀ m ∈ e'.limit.max_size, e'.limit.min_size ≤ m := by
        intro e' he'
        obtain ⟨e, he, heq⟩ := adjustPass_limit_mem target cells s target true e' he'
        rw [heq]
        exact hminmax e he
      have hlocked2 : ∀ e' ∈ (adjustPass target cells s target true).cells,
          e'.locked = true →
            e'.limit.min_size ≤ e'.value ∧ ∀ m ∈ e'.limit.max_size, e'.value ≤ m :=
        fun e' he' => (hbounds e' he').1
      have := ih _ _ _ _ hminmax2 hlocked2 h
      rwa [adjustPass_limits] at this

theorem unlockedSum_nonneg (cells : List Ent) (h : ∀ e ∈ cells, 0 < e.limit.ratio) :
    0 ≤ unlockedSum cells := by
  induction cells with
  | nil => simp [unlockedSum]
  | cons e rest ih =>
    have he := h e (List.mem_cons_self e rest)
    have hr := ih fun x hx => h x (List.mem_cons_of_mem e hx)
    simp only [unlockedSum, List.map_cons, List.sum_cons] at *
    by_cases hl : e.locked = true <;> simp [hl] <;> [linarith; linarith]

theorem unlockedMinSum_nonneg (cells : List Ent) (h : ∀ e ∈ cells, 0 ≤ e.limit.min_size) :
    0 ≤ unlockedMinSum cells := by
  induction cells with
  | nil => simp [unlockedMinSum]
  | cons e rest ih =>
    have he := h e (List.mem_cons_self e rest)
    have hr := ih fun x hx => h x (List.mem_cons_of_mem e hx)
    simp only [unlockedMinSum, List.map_cons, List.sum_cons] at *
    by_cases hl : e.locked = true <;> simp [hl] <;> [linarith; linarith]

theorem unlockedSum_pos (cells : List Ent) (h : ∀ e ∈ cells, 0 < e.limit.ratio)
    (hex : ∃ e ∈ cells, e.locked = false) : 0 < unlockedSum cells := by
  induction cells with
  | nil => simp at hex
  | cons e rest ih =>
    have he := h e (List.mem_cons_self e rest)
    have hnn := unlockedSum_nonneg rest fun x hx => h x (List.mem_cons_of_mem e hx)
    simp only [unlockedSum, List.map_cons, List.sum_cons] at *
    by_cases hl : e.locked = true
    · simp only [hl, if_true]
      obtain ⟨x, hx, hxu⟩ := hex
      rcases List.mem_cons.mp hx with heq | hmem
      · rw [heq] at hxu
        rw [hxu] at hl
        simp at hl
      · have := ih (fun x hx => h x (List.mem_cons_of_mem e hx)) ⟨x, hmem, hxu⟩
        simp only [unlockedSum] at this
        simpa using this
    · simp only [hl, if_false, Bool.false_eq_true]
      linarith

theorem allLocked_unlockedValueSum (cells : List Ent)
    (h : ∀ e ∈ cells, e.locked = true) : unlockedValueSum cells = 0 := by
  induction cells with
  | nil => simp [unlockedValueSum]
  | cons e rest ih =>
    have he := h e (List.mem_cons_self e rest)
    have hr := ih fun x hx => h x (List.mem_cons_of_mem e hx)
    simp only [unlockedValueSum, List.map_cons, List.sum_cons] at *
    simp [he, hr]

theorem allLocked_unlockedMinSum (cells : List Ent)
    (h : ∀ e ∈ cells, e.locked = true) : unlockedMinSum cells = 0 := by
  induction cells with
  | nil => simp [unlockedMinSum]
  | cons e rest ih =>
    have he := h e (List.mem_cons_self e rest)
    have hr := ih fun x hx => h x (List.mem_cons_of_mem e hx)
    simp only [unlockedMinSum, List.map_cons, List.sum_cons] at *
    simp [he, hr]

theorem adjustPass_lockedMin (target : ℚ) (cells : List Ent) (s nt : ℚ) (al : Bool)
    (hnone : ∀ e ∈ cells, e.limit.max_size = none)
    (hlocked : ∀ e ∈ cells, e.locked = true → e.value = e.limit.min_size) :
    ∀ e' ∈ (adjustPass target cells s nt al).cells,
      e'.locked = true → e'.value = e'.limit.min_size := by
  induction cells generalizing s nt al with
  | nil => simp [adjustPass]
  | cons e rest ih =>
    have hnone_e := hnone e (List.mem_cons_self e rest)
    have hnone_rest : ∀ x ∈ rest, x.limit.max_size = none :=
      fun x hx => hnone x (List.mem_cons_of_mem e hx)
    have hlocked_rest : ∀ x ∈ rest, x.locked = true → x.value = x.limit.min_size :=
      fun x hx => hlocked x (List.mem_cons_of_mem e hx)
    by_cases hl : e.locked = true
    · simp only [adjustPass, hl, if_true]
      intro e' he'
      rcases List.mem_cons.mp he' with heq | hmem
      · rw [heq]
        exact hlocked e (List.mem_cons_self e rest)
      · exact ih _ _ _ hnone_rest hlocked_rest e' hmem
    · by_cases hp : (cellShare target s e.limit).2 = true
      · simp only [adjustPass, hl, hp, if_true, if_false, Bool.false_eq_true]
        intro e' he'
        rcases List.mem_cons.mp he' with heq | hmem
        · rw [heq]
          intro _
          simp only
          rcases cellShare_locked target s e.limit hp with hv | ⟨m, hm, _⟩
          · exact hv
          · rw [hnone_e] at hm
            simp at hm
        · exact ih _ _ _ hnone_rest hlocked_rest e' hmem
      · simp only [adjustPass, hl, hp, if_false, Bool.false_eq_true]
        intro e' he'
        rcases List.mem_cons.mp he' with heq | hmem
        · rw [heq]
          intro hc
          simp at hc
        · exact ih _ _ _ hnone_rest hlocked_rest e' hmem

theorem adjustPass_lvs_ums (target : ℚ) (cells : List Ent) (s nt : ℚ) (al : Bool)
    (hnone : ∀ e ∈ cells, e.limit.max_size = none) :
    lockedValueSum (adjustPass target cells s nt al).cells
        + unlockedMinSum (adjustPass target cells s nt al).cells
      = lockedValueSum cells + unlockedMinSum cells := by
  induction cells generalizing s nt al with
  | nil => simp [adjustPass]
  | cons e rest ih =>
    have hnone_e := hnone e (List.mem_cons_self e rest)
    have hnone_rest : ∀ x ∈ rest, x.limit.max_size = none :=
      fun x hx => hnone x (List.mem_cons_of_mem e hx)
    by_cases hl : e.locked = true
    · simp only [adjustPass, hl, if_true, lockedValueSum, unlockedMinSum,
        List.map_cons, List.sum_cons]
      have := ih s nt al hnone_rest
      simp only [lockedValueSum, unlockedMinSum] at this
      simp [hl]
      linarith
    · by_cases hp : (cellShare target s e.limit).2 = true
      · simp only [adjustPass, hl, hp, if_true, if_false, Bool.false_eq_true,
          lockedValueSum, unlockedMinSum, List.map_cons, List.sum_cons]
        have := ih (s - e.limit.ratio) (nt - (cellShare target s e.limit).1) al hnone_rest
        simp only [lockedValueSum, unlockedMinSum] at this
        have hv : (cellShare target s e.limit).1 = e.limit.min_size := by
          rcases cellShare_locked target s e.limit hp with hv | ⟨m, hm, _⟩
          · exact hv
          · rw [hnone_e] at hm
            simp at hm
        rw [hv] at this
        simp [hl, hv]
        linarith
      · simp only [adjustPass, hl, hp, if_false, Bool.false_eq_true,
          lockedValueSum, unlockedMinSum, List.map_cons, List.sum_cons]
        have := ih s nt false hnone_rest
        simp only [lockedValueSum, unlockedMinSum] at this
        simp [hl]
        linarith

theorem adjustPass_ums_le (target : ℚ) (cells : List Ent) (s nt : ℚ) (al : Bool)
    (hmin : ∀ e ∈ cells, 0 ≤ e.limit.min_size) :
    unlockedMinSum (adjustPass target cells s nt al).cells ≤ unlockedMinSum cells := by
  induction cells generalizing s nt al with
  | nil => simp [adjustPass]
  | cons e rest ih =>
    have hmin_e := hmin e (List.mem_cons_self e rest)
    have hmin_rest : ∀ x ∈ rest, 0 ≤ x.limit.min_size :=
      fun x hx => hmin x (List.mem_cons_of_mem e hx)
    by_cases hl : e.locked = true
    · simp only [adjustPass, hl, if_true, unlockedMinSum, List.map_cons, List.sum_cons]
      have := ih s nt al hmin_rest
      simp only [unlockedMinSum] at this
      simp [hl]
      linarith
    · by_cases hp : (cellShare target s e.limit).2 = true
      · simp only [adjustPass, hl, hp, if_true, if_false, Bool.false_eq_true,
          unlockedMinSum, List.map_cons, List.sum_cons]
        have := ih (s - e.limit.ratio) (nt - (cellShare target s e.limit).1) al hmin_rest
        simp only [unlockedMinSum] at this
        simp [hl]
        linarith
      · simp only [adjustPass, hl, hp, if_false, Bool.false_eq_true,
          unlockedMinSum, List.map_cons, List.sum_cons]
        have := ih s nt false hmin_rest
        simp only [unlockedMinSum] at this
        simp [hl]
        linarith

theorem allLocked_unlockedSum (cells : List Ent)
    (h : ∀ e ∈ cells, e.locked = true) : unlockedSum cells = 0 := by
  induction cells with
  | nil => simp [unlockedSum]
  | cons e rest ih =>
    have he := h e (List.mem_cons_self e rest)
    have hr := ih fun x hx => h x (List.mem_cons_of_mem e hx)
    simp only [unlockedSum, List.map_cons, List.sum_cons] at *
    simp [he, hr]

theorem adjustPass_lvs_mono (target : ℚ) (cells : List Ent) (s nt : ℚ) (al : Bool)
    (hmin : ∀ e ∈ cells, 0 ≤ e.limit.min_size)
    (hnone : ∀ e ∈ cells, e.limit.max_size = none) :
    lockedValueSum cells ≤ lockedValueSum (adjustPass target cells s nt al).cells := by
  have h1 := adjustPass_lvs_ums target cells s nt al hnone
  have h2 := adjustPass_ums_le target cells s nt al hmin
  linarith

theorem adjustPass_notAllLock (target : ℚ) (cells : List Ent) (nt : ℚ) (al : Bool)
    (hratio : ∀ e ∈ cells, 0 < e.limit.ratio)
    (hmin : ∀ e ∈ cells, 0 ≤ e.limit.min_size)
    (hnone : ∀ e ∈ cells, e.limit.max_size = none)
    (htarget : unlockedMinSum cells < target)
    (hex : ∃ e ∈ cells, e.locked = false) :
    ∃ e' ∈ (adjustPass target cells (unlockedSum cells) nt al).cells,
      e'.locked = false := by
  induction cells generalizing nt al with
  | nil => simp at hex
  | cons e rest ih =>
    have hratio_e := hratio e (List.mem_cons_self e rest)
    have hmin_e := hmin e (List.mem_cons_self e rest)
    have hnone_e := hnone e (List.mem_cons_self e rest)
    have hratio_rest : ∀ x ∈ rest, 0 < x.limit.ratio :=
      fun x hx => hratio x (List.mem_cons_of_mem e hx)
    have hmin_rest : ∀ x ∈ rest, 0 ≤ x.limit.min_size :=
      fun x hx => hmin x (List.mem_cons_of_mem e hx)
    have hnone_rest : ∀ x ∈ rest, x.limit.max_size = none :=
      fun x hx => hnone x (List.mem_cons_of_mem e hx)
    by_cases hl : e.locked = true
    · have hs : unlockedSum (e :: rest) = unlockedSum rest := by
        simp [unlockedSum, hl]
      have hms : unlockedMinSum (e :: rest) = unlockedMinSum rest := by
        simp [unlockedMinSum, hl]
      have hex2 : ∃ x ∈ rest, x.locked = false := by
        obtain ⟨x, hx, hxu⟩ := hex
        rcases List.mem_cons.mp hx with heq | hmem
        · rw [heq] at hxu
          rw [hxu] at hl
          simp at hl
        · exact ⟨x, hmem, hxu⟩
      rw [hs]
      simp only [adjustPass, hl, if_true]
      obtain ⟨e', he', hu⟩ := ih nt al hratio_rest hmin_rest hnone_rest
        (by rw [← hms]; exact htarget) hex2
      exact ⟨e', List.mem_cons_of_mem _ he', hu⟩
    · have hsum : unlockedSum (e :: rest) = e.limit.ratio + unlockedSum rest := by
        simp [unlockedSum, hl]
      have hmsum : unlockedMinSum (e :: rest) = e.limit.min_size + unlockedMinSum rest := by
        simp [unlockedMinSum, hl]
      by_cases hp : (cellShare target (unlockedSum (e :: rest)) e.limit).2 = true
      · by_cases hex2 : ∃ x ∈ rest, x.locked = false
        · simp only [adjustPass, hl, hp, if_true, if_false, Bool.false_eq_true]
          have hs2 : unlockedSum (e :: rest) - e.limit.ratio = unlockedSum rest := by
            rw [hsum]; ring
          rw [hs2]
          obtain ⟨e', he', hu⟩ := ih (nt - (cellShare target (unlockedSum (e :: rest))
              e.limit).1) al hratio_rest hmin_rest hnone_rest
            (by rw [hmsum] at htarget; linarith) hex2
          exact ⟨e', List.mem_cons_of_mem _ he', hu⟩
        · push_neg at hex2
          have hall : ∀ x ∈ rest, x.locked = true := by
            intro x hx
            have := hex2 x hx
            simp only [Bool.not_eq_false] at this
            exact this
          have hus0 : unlockedSum rest = 0 := allLocked_unlockedSum rest hall
          have hums0 : unlockedMinSum rest = 0 := allLocked_unlockedMinSum rest hall
          have hs3 : unlockedSum (e :: rest) = e.limit.ratio := by rw [hsum, hus0]; ring
          have hshare := (cellShare_none_lock_iff target (unlockedSum (e :: rest))
            e.limit hnone_e).mp hp
          rw [hs3] at hshare
          rw [mul_div_assoc, div_self (ne_of_gt hratio_e), mul_one] at hshare
          rw [hmsum, hums0] at htarget
          linarith
      · simp only [adjustPass, hl, hp, if_false, Bool.false_eq_true]
        exact ⟨_, List.mem_cons_self _ _, rfl⟩

theorem adjustPass_locksAll_nonpos (target : ℚ) (cells : List Ent) (s nt : ℚ) (al : Bool)
    (acc : ℚ)
    (hratio : ∀ e ∈ cells, 0 < e.limit.ratio)
    (hmin : ∀ e ∈ cells, 0 ≤ e.limit.min_size)
    (hnone : ∀ e ∈ cells, e.limit.max_size = none)
    (hacc : 0 ≤ acc) (hs : s = acc + unlockedSum cells) (ht : target ≤ 0) :
    ∀ e' ∈ (adjustPass target cells s nt al).cells, e'.locked = true := by
  induction cells generalizing s nt al acc with
  | nil => simp [adjustPass]
  | cons e rest ih =>
    have hratio_e := hratio e (List.mem_cons_self e rest)
    have hmin_e := hmin e (List.mem_cons_self e rest)
    have hnone_e := hnone e (List.mem_cons_self e rest)
    have hratio_rest : ∀ x ∈ rest, 0 < x.limit.ratio :=
      fun x hx => hratio x (List.mem_cons_of_mem e hx)
    have hmin_rest : ∀ x ∈ rest, 0 ≤ x.limit.min_size :=
      fun x hx => hmin x (List.mem_cons_of_mem e hx)
    have hnone_rest : ∀ x ∈ rest, x.limit.max_size = none :=
      fun x hx => hnone x (List.mem_cons_of_mem e hx)
    have husnn := unlockedSum_nonneg rest hratio_rest
    by_cases hl : e.locked = true
    · have hs2 : s = acc + unlockedSum rest := by
        rw [hs]; simp [unlockedSum, hl]
      simp only [adjustPass, hl, if_true]
      intro e' he'
      rcases List.mem_cons.mp he' with heq | hmem
      · rw [heq]; exact hl
      · exact ih _ _ _ _ hratio_rest hmin_rest hnone_rest hacc hs2 e' hmem
    · have hsum : unlockedSum (e :: rest) = e.limit.ratio + unlockedSum rest := by
        simp [unlockedSum, hl]
      have hspos : 0 < s := by
        rw [hs, hsum]
        linarith
      have hshare_nonpos : target * e.limit.ratio / s ≤ 0 := by
        apply div_nonpos_of_nonpos_of_nonneg
        · exact mul_nonpos_of_nonpos_of_nonneg ht (le_of_lt hratio_e)
        · exact le_of_lt hspos
      have hp : (cellShare target s e.limit).2 = true :=
        (cellShare_none_lock_iff target s e.limit hnone_e).mpr
          (le_trans hshare_nonpos hmin_e)
      simp only [adjustPass, hl, hp, if_true, if_false, Bool.false_eq_true]
      intro e' he'
      rcases List.mem_cons.mp he' with heq | hmem
      · rw [heq]
      · have hs3 : s - e.limit.ratio = acc + unlockedSum rest := by
          rw [hs, hsum]; ring
        exact ih _ _ _ _ hratio_rest hmin_rest hnone_rest hacc hs3 e' hmem

theorem adjustPass_noNewLocks (target : ℚ) (cells : List Ent) (s nt : ℚ) (al : Bool)
    (acc : ℚ)
    (hratio : ∀ e ∈ cells, 0 < e.limit.ratio)
    (hmin : ∀ e ∈ cells, 0 ≤ e.limit.min_size)
    (hnone : ∀ e ∈ cells, e.limit.max_size = none)
    (hacc : 0 ≤ acc) (hs : s = acc + unlockedSum cells) (ht : 0 < target)
    (hnt : (adjustPass target cells s nt al).newTarget = nt) :
    unlockedValueSum (adjustPass target cells s nt al).cells
        = target * unlockedSum cells / s ∧
      unlockedMinSum (adjustPass target cells s nt al).cells = unlockedMinSum cells ∧
      unlockedSum (adjustPass target cells s nt al).cells = unlockedSum cells := by
  induction cells generalizing s nt al acc with
  | nil => simp [adjustPass, unlockedValueSum, unlockedMinSum, unlockedSum]
  | cons e rest ih =>
    have hratio_e := hratio e (List.mem_cons_self e rest)
    have hmin_e := hmin e (List.mem_cons_self e rest)
    have hnone_e := hnone e (List.mem_cons_self e rest)
    have hratio_rest : ∀ x ∈ rest, 0 < x.limit.ratio :=
      fun x hx => hratio x (List.mem_cons_of_mem e hx)
    have hmin_rest : ∀ x ∈ rest, 0 ≤ x.limit.min_size :=
      fun x hx => hmin x (List.mem_cons_of_mem e hx)
    have hnone_rest : ∀ x ∈ rest, x.limit.max_size = none :=
      fun x hx => hnone x (List.mem_cons_of_mem e hx)
    have husnn := unlockedSum_nonneg rest hratio_rest
    by_cases hl : e.locked = true
    · have hs2 : s = acc + unlockedSum rest := by
        rw [hs]; simp [unlockedSum, hl]
      simp only [adjustPass, hl, if_true] at hnt ⊢
      obtain ⟨h1, h2, h3⟩ := ih _ _ _ _ hratio_rest hmin_rest hnone_rest hacc hs2 hnt
      refine ⟨?_, ?_, ?_⟩
      · simp only [unlockedValueSum, List.map_cons, List.sum_cons] at *
        simp [hl, h1, unlockedSum]
      · simp only [unlockedMinSum, List.map_cons, List.sum_cons] at *
        simp [hl, h2]
      · simp only [unlockedSum, List.map_cons, List.sum_cons] at *
        simp [hl, h3]
    · have hsum : unlockedSum (e :: rest) = e.limit.ratio + unlockedSum rest := by
        simp [unlockedSum, hl]
      have hspos : 0 < s := by
        rw [hs, hsum]
        linarith
      by_cases hp : (cellShare target s e.limit).2 = true
      · exfalso
        have hv : (cellShare target s e.limit).1 = e.limit.min_size := by
          rcases cellShare_locked target s e.limit hp with hv | ⟨m, hm, _⟩
          · exact hv
          · rw [hnone_e] at hm
            simp at hm
        simp only [adjustPass, hl, hp, if_true, if_false, Bool.false_eq_true] at hnt
        have hacct := adjustPass_newTarget target rest (s - e.limit.ratio)
          (nt - (cellShare target s e.limit).1) al
        rw [hacct, hv] at hnt
        have hmono := adjustPass_lvs_mono target rest (s - e.limit.ratio)
          (nt - (cellShare target s e.limit).1) al hmin_rest hnone_rest
        rw [hv] at hmono
        have hmin0 : e.limit.min_size = 0 := by linarith
        have hshare := (cellShare_none_lock_iff target s e.limit hnone_e).mp hp
        rw [hmin0] at hshare
        have hpos : 0 < target * e.limit.ratio / s :=
          div_pos (mul_pos ht hratio_e) hspos
        linarith
      · have hs3 : s = (acc + e.limit.ratio) + unlockedSum rest := by
          rw [hs, hsum]; ring
        simp only [adjustPass, hl, hp, if_false, Bool.false_eq_true] at hnt ⊢
        obtain ⟨h1, h2, h3⟩ := ih _ _ _ _ hratio_rest hmin_rest hnone_rest
          (by linarith) hs3 hnt
        have hv := (cellShare_unlocked target s e.limit (by simpa using hp)).1
        refine ⟨?_, ?_, ?_⟩
        · simp only [unlockedValueSum, List.map_cons, List.sum_cons] at *
          simp only [hl, if_false, Bool.false_eq_true, hsum]
          simp only [hv, h1]
          rw [div_add_div_same]
          ring_nf
        · simp only [unlockedMinSum, List.map_cons, List.sum_cons] at *
          simp [hl, h2]
        · simp only [unlockedSum, List.map_cons, List.sum_cons] at *
          simp [hl, h3]

theorem uvs_ge_ums (cells : List Ent)
    (h : ∀ e ∈ cells, e.locked = false → e.limit.min_size ≤ e.value) :
    unlockedMinSum cells ≤ unlockedValueSum cells := by
  induction cells with
  | nil => simp [unlockedMinSum, unlockedValueSum]
  | cons e rest ih =>
    have he := h e (List.mem_cons_self e rest)
    have hr := ih fun x hx => h x (List.mem_cons_of_mem e hx)
    simp only [unlockedMinSum, unlockedValueSum, List.map_cons, List.sum_cons] at *
    by_cases hl : e.locked = true
    · simpa [hl] using hr
    · have hev := he (by simpa using hl)
      simp only [hl, if_false, Bool.false_eq_true]
      linarith

theorem uvs_gt_ums (cells : List Ent)
    (h : ∀ e ∈ cells, e.locked = false → e.limit.min_size < e.value)
    (hex : ∃ e ∈ cells, e.locked = false) :
    unlockedMinSum cells < unlockedValueSum cells := by
  induction cells with
  | nil => simp at hex
  | cons e rest ih =>
    have hstep : ∀ x ∈ rest, x.locked = false → x.limit.min_size < x.value :=
      fun x hx => h x (List.mem_cons_of_mem e hx)
    have hge : unlockedMinSum rest ≤ unlockedValueSum rest :=
      uvs_ge_ums rest fun x hx hxl => le_of_lt (hstep x hx hxl)
    simp only [unlockedMinSum, unlockedValueSum, List.map_cons, List.sum_cons] at *
    by_cases hl : e.locked = true
    · simp only [hl, if_true]
      obtain ⟨x, hx, hxu⟩ := hex
      rcases List.mem_cons.mp hx with heq | hmem
      · rw [heq] at hxu
        rw [hxu] at hl
        simp at hl
      · have := ih hstep ⟨x, hmem, hxu⟩
        simpa using this
    · have hev := h e (List.mem_cons_self e rest) (by simpa using hl)
      simp only [hl, if_false, Bool.false_eq_true]
      linarith

theorem adjustPass_id_locked (target : ℚ) (cells : List Ent) (s nt : ℚ) (al : Bool)
    (h : ∀ e ∈ cells, e.locked = true) :
    adjustPass target cells s nt al = ⟨cells, s, nt, al⟩ := by
  induction cells generalizing s nt al with
  | nil => simp [adjustPass]
  | cons e rest ih =>
    have he := h e (List.mem_cons_self e rest)
    have hr := ih s nt al fun x hx => h x (List.mem_cons_of_mem e hx)
    simp [adjustPass, he, hr]

theorem adjustPass_exists_unlocked (target : ℚ) (cells : List Ent) (s nt : ℚ) (al : Bool)
    (h : ∃ e' ∈ (adjustPass target cells s nt al).cells, e'.locked = false) :
    ∃ e ∈ cells, e.locked = false := by
  by_contra hcon
  push_neg at hcon
  have hall : ∀ e ∈ cells, e.locked = true := by
    intro e he
    have := hcon e he
    simpa using this
  rw [adjustPass_id_locked target cells s nt al hall] at h
  obtain ⟨e', he', hu⟩ := h
  rw [hall e' he'] at hu
  simp at hu

theorem adjustLoop_sum (fuel : Nat) :
    ∀ (target : ℚ) (cells : List Ent) (r : List ℚ),
      (∀ e ∈ cells, 0 < e.limit.ratio) →
      (∀ e ∈ cells, 0 ≤ e.limit.min_size) →
      (∀ e ∈ cells, e.limit.max_size = none) →
      (∀ e ∈ cells, e.locked = true → e.value = e.limit.min_size) →
      (∃ e ∈ cells, e.locked = false) →
      unlockedMinSum cells ≤ target →
      adjustLoop fuel target (unlockedSum cells) cells = some r →
      r.sum = target + lockedValueSum cells := by
  induction fuel with
  | zero => intro target cells r _ _ _ _ _ _ h; simp [adjustLoop] at h
  | succ f ih =>
    intro target cells r hratio hmin hnone hlockedmin hex htle h
    simp only [adjustLoop] at h
    have hacct := adjustPass_newTarget target cells (unlockedSum cells) target true
    have hsums := adjustPass_lvs_ums target cells (unlockedSum cells) target true hnone
    split at h
    · rename_i hbreak
      simp only [Option.some.injEq] at h
      subst h
      rw [valueSum_split]
      by_cases hall :
          (adjustPass target cells (unlockedSum cells) target true).allLock = true
      · have hA := adjustPass_allLock target cells (unlockedSum cells) target true
        rw [hall, Bool.true_and] at hA
        have halll : ∀ e' ∈ (adjustPass target cells (unlockedSum cells) target true).cells,
            e'.locked = true := by
          intro e' he'
          exact List.all_eq_true.mp hA.symm e' he'
        have hnot : ¬ unlockedMinSum cells < target := by
          intro hlt
          obtain ⟨e', he', hu⟩ :=
            adjustPass_notAllLock target cells target true hratio hmin hnone hlt hex
          rw [halll e' he'] at hu
          simp at hu
        have hte : unlockedMinSum cells = target := le_antisymm htle (not_lt.mp hnot)
        have huvs0 := allLocked_unlockedValueSum _ halll
        have hums0 := allLocked_unlockedMinSum _ halll
        linarith
      · have hnteq : (adjustPass target cells (unlockedSum cells) target true).newTarget
            = target := by
          rcases hbreak with hb | hb
          · exact absurd hb hall
          · exact hb
        rcases lt_or_le 0 target with hpos | hnonpos
        · have hnn := adjustPass_noNewLocks target cells (unlockedSum cells) target true 0
            hratio hmin hnone le_rfl (by ring) hpos hnteq
          have hspos : 0 < unlockedSum cells := unlockedSum_pos cells hratio hex
          have huvs : unlockedValueSum
              (adjustPass target cells (unlockedSum cells) target true).cells = target := by
            rw [hnn.1, mul_div_assoc, div_self (ne_of_gt hspos), mul_one]
          linarith
        · have hums_nn := unlockedMinSum_nonneg cells hmin
          have halll := adjustPass_locksAll_nonpos target cells (unlockedSum cells)
            target true 0 hratio hmin hnone le_rfl (by ring) hnonpos
          have huvs0 := allLocked_unlockedValueSum _ halll
          have hums0 := allLocked_unlockedMinSum _ halll
          linarith
    · rename_i hbreak
      obtain ⟨hnall, hnne⟩ := not_or.mp hbreak
      have hmem := adjustPass_limit_mem target cells (unlockedSum cells) target true
      have hratio2 : ∀ e' ∈ (adjustPass target cells (unlockedSum cells) target true).cells,
          0 < e'.limit.ratio := by
        intro e' he'
        obtain ⟨e, he, heq⟩ := hmem e' he'
        rw [heq]
        exact hratio e he
      have hmin2 : ∀ e' ∈ (adjustPass target cells (unlockedSum cells) target true).cells,
          0 ≤ e'.limit.min_size := by
        intro e' he'
        obtain ⟨e, he, heq⟩ := hmem e' he'
        rw [heq]
        exact hmin e he
      have hnone2 : ∀ e' ∈ (adjustPass target cells (unlockedSum cells) target true).cells,
          e'.limit.max_size = none := by
        intro e' he'
        obtain ⟨e, he, heq⟩ := hmem e' he'
        rw [heq]
        exact hnone e he
      have hlockedmin2 := adjustPass_lockedMin target cells (unlockedSum cells) target true
        hnone hlockedmin
      have hex2 : ∃ e' ∈ (adjustPass target cells (unlockedSum cells) target true).cells,
          e'.locked = false := by
        have hA := adjustPass_allLock target cells (unlockedSum cells) target true
        rw [Bool.true_and] at hA
        have hnotall : ¬ ((adjustPass target cells (unlockedSum cells) target true).cells.all
            Ent.locked = true) := by
          intro hc
          exact hnall (hA.trans hc)
        by_contra hcon
        push_neg at hcon
        refine hnotall (List.all_eq_true.mpr ?_)
        intro e' he'
        have := hcon e' he'
        simpa using this
      have humso_le := adjustPass_ums_le target cells (unlockedSum cells) target true hmin
      have humso_nn := unlockedMinSum_nonneg _ hmin2
      have hnt_ge : unlockedMinSum
          (adjustPass target cells (unlockedSum cells) target true).cells
            ≤ (adjustPass target cells (unlockedSum cells) target true).newTarget := by
        linarith
      have htp : (if 0 < (adjustPass target cells (unlockedSum cells) target true).newTarget
          then (adjustPass target cells (unlockedSum cells) target true).newTarget else 0)
            = (adjustPass target cells (unlockedSum cells) target true).newTarget := by
        split_ifs with hc
        · rfl
        · linarith
      have hsr : (adjustPass target cells (unlockedSum cells) target true).sumRatio
          = unlockedSum (adjustPass target cells (unlockedSum cells) target true).cells := by
        have := adjustPass_sumRatio target cells (unlockedSum cells) target true
        linarith
      rw [htp, hsr] at h
      have hrec := ih _ _ _ hratio2 hmin2 hnone2 hlockedmin2 hex2 hnt_ge h
      linarith

theorem adjustLoop_floor (fuel : Nat) :
    ∀ (target : ℚ) (cells : List Ent) (r : List ℚ),
      (∀ e ∈ cells, 0 < e.limit.ratio) →
      (∀ e ∈ cells, 0 ≤ e.limit.min_size) →
      (∀ e ∈ cells, e.limit.max_size = none) →
      (∀ e ∈ cells, e.locked = true → e.value = e.limit.min_size) →
      target ≤ unlockedMinSum cells →
      adjustLoop fuel target (unlockedSum cells) cells = some r →
      r = cells.map fun e => e.limit.min_size := by
  induction fuel with
  | zero => intro target cells r _ _ _ _ _ h; simp [adjustLoop] at h
  | succ f ih =>
    intro target cells r hratio hmin hnone hlockedmin htge h
    simp only [adjustLoop] at h
    have hacct := adjustPass_newTarget target cells (unlockedSum cells) target true
    have hsums := adjustPass_lvs_ums target cells (unlockedSum cells) target true hnone
    have hmem := adjustPass_limit_mem target cells (unlockedSum cells) target true
    have hmaplim := adjustPass_limits target cells (unlockedSum cells) target true
    have hratio2 : ∀ e' ∈ (adjustPass target cells (unlockedSum cells) target true).cells,
        0 < e'.limit.ratio := by
      intro e' he'
      obtain ⟨e, he, heq⟩ := hmem e' he'
      rw [heq]
      exact hratio e he
    have hmin2 : ∀ e' ∈ (adjustPass target cells (unlockedSum cells) target true).cells,
        0 ≤ e'.limit.min_size := by
      intro e' he'
      obtain ⟨e, he, heq⟩ := hmem e' he'
      rw [heq]
      exact hmin e he
    have hnone2 : ∀ e' ∈ (adjustPass target cells (unlockedSum cells) target true).cells,
        e'.limit.max_size = none := by
      intro e' he'
      obtain ⟨e, he, heq⟩ := hmem e' he'
      rw [heq]
      exact hnone e he
    have hlockedmin2 := adjustPass_lockedMin target cells (unlockedSum cells) target true
      hnone hlockedmin
    have hminmap : (adjustPass target cells (unlockedSum cells) target true).cells.map
        (fun e => e.limit.min_size) = cells.map fun e => e.limit.min_size := by
      have h1 := congrArg (List.map CellLimit.min_size) hmaplim
      simpa [List.map_map, Function.comp] using h1
    split at h
    · rename_i hbreak
      simp only [Option.some.injEq] at h
      subst h
      by_cases hall :
          (adjustPass target cells (unlockedSum cells) target true).allLock = true
      · have hA := adjustPass_allLock target cells (unlockedSum cells) target true
        rw [hall, Bool.true_and] at hA
        have halll : ∀ e' ∈ (adjustPass target cells (unlockedSum cells) target true).cells,
            e'.locked = true := by
          intro e' he'
          exact List.all_eq_true.mp hA.symm e' he'
        rw [← hminmap]
        apply List.map_congr_left
        intro e' he'
        exact hlockedmin2 e' he' (halll e' he')
      · exfalso
        have hnteq : (adjustPass target cells (unlockedSum cells) target true).newTarget
            = target := by
          rcases hbreak with hb | hb
          · exact absurd hb hall
          · exact hb
        rcases lt_or_le 0 target with hpos | hnonpos
        · have hnn := adjustPass_noNewLocks target cells (unlockedSum cells) target true 0
            hratio hmin hnone le_rfl (by ring) hpos hnteq
          have hex2 : ∃ e' ∈ (adjustPass target cells (unlockedSum cells) target true).cells,
              e'.locked = false := by
            have hA := adjustPass_allLock target cells (unlockedSum cells) target true
            rw [Bool.true_and] at hA
            have hnotall : ¬ ((adjustPass target cells (unlockedSum cells)
                target true).cells.all Ent.locked = true) := by
              intro hc
              exact hall (hA.trans hc)
            by_contra hcon
            push_neg at hcon
            refine hnotall (List.all_eq_true.mpr ?_)
            intro e' he'
            have := hcon e' he'
            simpa using this
          have hex := adjustPass_exists_unlocked target cells (unlockedSum cells)
            target true hex2
          have hspos : 0 < unlockedSum cells := unlockedSum_pos cells hratio hex
          have huvs : unlockedValueSum
              (adjustPass target cells (unlockedSum cells) target true).cells = target := by
            rw [hnn.1, mul_div_assoc, div_self (ne_of_gt hspos), mul_one]
          have hminmax2 : ∀ e' ∈ (adjustPass target cells (unlockedSum cells)
              target true).cells, ∀ m ∈ e'.limit.max_size, e'.limit.min_size ≤ m := by
            intro e' he' m hm
            rw [hnone2 e' he'] at hm
            simp at hm
          have hminmax : ∀ e ∈ cells, ∀ m ∈ e.limit.max_size, e.limit.min_size ≤ m := by
            intro e he m hm
            rw [hnone e he] at hm
            simp at hm
          have hlk : ∀ e ∈ cells, e.locked = true →
              e.limit.min_size ≤ e.value ∧ ∀ m ∈ e.limit.max_size, e.value ≤ m := by
            intro e he hle
            refine ⟨le_of_eq (hlockedmin e he hle).symm, ?_⟩
            intro m hm
            rw [hnone e he] at hm
            simp at hm
          have hbnd := adjustPass_bounds target cells (unlockedSum cells) target true
            hminmax hlk
          have hgt := uvs_gt_ums
            (adjustPass target cells (unlockedSum cells) target true).cells
            (fun e' he' hu => ((hbnd e' he').2 hu).1) hex2
          have := hnn.2.1
          linarith
        · have halll := adjustPass_locksAll_nonpos target cells (unlockedSum cells)
            target true 0 hratio hmin hnone le_rfl (by ring) hnonpos
          have hA := adjustPass_allLock target cells (unlockedSum cells) target true
          rw [Bool.true_and] at hA
          exact hall (hA.trans (List.all_eq_true.mpr halll))
    · rename_i hbreak
      obtain ⟨hnall, hnne⟩ := not_or.mp hbreak
      have humso_nn := unlockedMinSum_nonneg _ hmin2
      have hnt_le : (adjustPass target cells (unlockedSum cells) target true).newTarget
          ≤ unlockedMinSum (adjustPass target cells (unlockedSum cells) target true).cells := by
        linarith
      have htp : (if 0 < (adjustPass target cells (unlockedSum cells) target true).newTarget
          then (adjustPass target cells (unlockedSum cells) target true).newTarget else 0)
            ≤ unlockedMinSum
              (adjustPass target cells (unlockedSum cells) target true).cells := by
        split_ifs with hc
        · exact hnt_le
        · exact humso_nn
      have hsr : (adjustPass target cells (unlockedSum cells) target true).sumRatio
          = unlockedSum (adjustPass target cells (unlockedSum cells) target true).cells := by
        have := adjustPass_sumRatio target cells (unlockedSum cells) target true
        linarith
      rw [hsr] at h
      have hrec := ih _ _ _ hratio2 hmin2 hnone2 hlockedmin2 htp h
      rw [hrec, ← hminmap]

theorem init_map_limit (limits : List CellLimit) :
    ((limits.map fun c => (⟨c, false, 0⟩ : Ent)).map Ent.limit) = limits := by
  induction limits with
  | nil => rfl
  | cons c cs ih => simp only [List.map_cons, ih]

theorem init_unlockedSum (limits : List CellLimit) :
    unlockedSum (limits.map fun c => ⟨c, false, 0⟩)
      = (limits.map CellLimit.ratio).sum := by
  induction limits with
  | nil => rfl
  | cons c cs ih =>
    simp only [unlockedSum, List.map_cons, List.sum_cons] at *
    rw [List.map_map] at ih
    simp [ih]

theorem init_unlockedMinSum (limits : List CellLimit) :
    unlockedMinSum (limits.map fun c => ⟨c, false, 0⟩)
      = (limits.map CellLimit.min_size).sum := by
  induction limits with
  | nil => rfl
  | cons c cs ih =>
    simp only [unlockedMinSum, List.map_cons, List.sum_cons] at *
    rw [List.map_map] at ih
    simp [ih]

theorem init_lockedValueSum (limits : List CellLimit) :
    lockedValueSum (limits.map fun c => ⟨c, false, 0⟩) = 0 := by
  induction limits with
  | nil => rfl
  | cons c cs ih =>
    simp only [lockedValueSum, List.map_cons, List.sum_cons] at *
    rw [List.map_map] at ih
    simp [ih]

theorem adjust_cells_isSome (limits : List CellLimit) (T : ℚ)
    (hratio : ∀ c ∈ limits, 0 < c.ratio) :
    ∃ r, adjust_cells limits T = some r ∧
      adjustLoop (limits.length + 1) T ((limits.map CellLimit.ratio).sum)
        (limits.map fun c => ⟨c, false, 0⟩) = some r := by
  have hall : (limits.all fun c => decide (0 < c.ratio)) = true := by
    simp only [List.all_eq_true, decide_eq_true_eq]
    exact hratio
  have hcount : unlockedCount (limits.map fun c => ⟨c, false, 0⟩) < limits.length + 1 := by
    simp only [unlockedCount, List.countP_map]
    have : limits.countP ((fun e : Ent => !e.locked) ∘ fun c => ⟨c, false, 0⟩)
        ≤ limits.length := List.countP_le_length _
    omega
  have hsome := adjustLoop_isSome (limits.length + 1) T
    ((limits.map CellLimit.ratio).sum) (limits.map fun c => ⟨c, false, 0⟩) hcount
  obtain ⟨r, hr⟩ := Option.isSome_iff_exists.mp hsome
  refine ⟨r, ?_, hr⟩
  unfold adjust_cells
  rw [if_pos hall]
  exact hr

/-- C1 (amended): for positive ratios and `min_size ≤ max_size` whenever a
`max_size` is present, `adjust_cells` returns a list of the same length
whose every element lies in the cell's `[min_size, max_size]` interval
(no upper bound when `max_size` is `None`); when moreover the list is
nonempty, no cell carries a `max_size`, every `min_size` is nonnegative
and the minimum sizes sum to at most the target, the returned sizes sum
to exactly the target. With a binding `max_size` the sizes can sum to
less than the target, as the counterexample shows. -/
theorem adjust_cells_sum_invariant (limits : List CellLimit) (T : ℚ)
    (hratio : ∀ c ∈ limits, 0 < c.ratio)
    (hminmax : ∀ c ∈ limits, ∀ m ∈ c.max_size, c.min_size ≤ m) :
    ∃ r, adjust_cells limits T = some r ∧ r.length = limits.length ∧
      List.Forall₂ (fun c v => c.min_size ≤ v ∧ ∀ m ∈ c.max_size, v ≤ m) limits r ∧
      (limits ≠ [] → (∀ c ∈ limits, c.max_size = none) →
        (∀ c ∈ limits, 0 ≤ c.min_size) →
        (limits.map CellLimit.min_size).sum ≤ T → r.sum = T) := by
  obtain ⟨r, hfull, hr⟩ := adjust_cells_isSome limits T hratio
  refine ⟨r, hfull, ?_, ?_, ?_⟩
  · have := adjustLoop_length (limits.length + 1) T
      ((limits.map CellLimit.ratio).sum) (limits.map fun c => ⟨c, false, 0⟩) r hr
    simpa using this
  · have hminmax2 : ∀ e ∈ (limits.map fun c => (⟨c, false, 0⟩ : Ent)),
        ∀ m ∈ e.limit.max_size, e.limit.min_size ≤ m := by
      intro e he
      rcases List.mem_map.mp he with ⟨c, hc, rfl⟩
      exact hminmax c hc
    have hlk : ∀ e ∈ (limits.map fun c => (⟨c, false, 0⟩ : Ent)), e.locked = true →
        e.limit.min_size ≤ e.value ∧ ∀ m ∈ e.limit.max_size, e.value ≤ m := by
      intro e he hl
      rcases List.mem_map.mp he with ⟨c, hc, rfl⟩
      simp at hl
    have := adjustLoop_inLimit (limits.length + 1) T
      ((limits.map CellLimit.ratio).sum) (limits.map fun c => ⟨c, false, 0⟩) r
      hminmax2 hlk hr
    rwa [init_map_limit] at this
  · intro hne hnone hmin hsle
    have hr2 : adjustLoop (limits.length + 1) T
        (unlockedSum (limits.map fun c => ⟨c, false, 0⟩))
        (limits.map fun c => ⟨c, false, 0⟩) = some r := by
      rw [init_unlockedSum]
      exact hr
    have hratio2 : ∀ e ∈ (limits.map fun c => (⟨c, false, 0⟩ : Ent)),
        0 < e.limit.ratio := by
      intro e he
      rcases List.mem_map.mp he with ⟨c, hc, rfl⟩
      exact hratio c hc
    have hmin2 : ∀ e ∈ (limits.map fun c => (⟨c, false, 0⟩ : Ent)),
        0 ≤ e.limit.min_size := by
      intro e he
      rcases List.mem_map.mp he with ⟨c, hc, rfl⟩
      exact hmin c hc
    have hnone2 : ∀ e ∈ (limits.map fun c => (⟨c, false, 0⟩ : Ent)),
        e.limit.max_size = none := by
      intro e he
      rcases List.mem_map.mp he with ⟨c, hc, rfl⟩
      exact hnone c hc
    have hlk2 : ∀ e ∈ (limits.map fun c => (⟨c, false, 0⟩ : Ent)), e.locked = true →
        e.value = e.limit.min_size := by
      intro e he hl
      rcases List.mem_map.mp he with ⟨c, hc, rfl⟩
      simp at hl
    have hex : ∃ e ∈ (limits.map fun c => (⟨c, false, 0⟩ : Ent)), e.locked = false := by
      obtain ⟨c, hc⟩ := List.exists_mem_of_ne_nil limits hne
      exact ⟨⟨c, false, 0⟩, List.mem_map_of_mem _ hc, rfl⟩
    have hsum := adjustLoop_sum (limits.length + 1) T
      (limits.map fun c => ⟨c, false, 0⟩) r hratio2 hmin2 hnone2 hlk2 hex
      (by rw [init_unlockedMinSum]; exact hsle) hr2
    rw [init_lockedValueSum] at hsum
    simpa using hsum

/-- Witness for C1 (amended) at two cells with ratios 1 and 3 and minimum
sizes 0 and 2 at target 8. -/
theorem adjust_cells_sum_invariant_witness :
    ∃ r, adjust_cells [⟨1, 0, none, ⟨1, 1⟩⟩, ⟨3, 2, none, ⟨1, 1⟩⟩] 8 = some r ∧
      r.length = ([⟨1, 0, none, ⟨1, 1⟩⟩, ⟨3, 2, none, ⟨1, 1⟩⟩] :
        List CellLimit).length ∧
      List.Forall₂ (fun c v => c.min_size ≤ v ∧ ∀ m ∈ c.max_size, v ≤ m)
        ([⟨1, 0, none, ⟨1, 1⟩⟩, ⟨3, 2, none, ⟨1, 1⟩⟩] : List CellLimit) r ∧
      (([⟨1, 0, none, ⟨1, 1⟩⟩, ⟨3, 2, none, ⟨1, 1⟩⟩] : List CellLimit) ≠ [] →
        (∀ c ∈ ([⟨1, 0, none, ⟨1, 1⟩⟩, ⟨3, 2, none, ⟨1, 1⟩⟩] : List CellLimit),
          c.max_size = none) →
        (∀ c ∈ ([⟨1, 0, none, ⟨1, 1⟩⟩, ⟨3, 2, none, ⟨1, 1⟩⟩] : List CellLimit),
          0 ≤ c.min_size) →
        (([⟨1, 0, none, ⟨1, 1⟩⟩, ⟨3, 2, none, ⟨1, 1⟩⟩] :
          List CellLimit).map CellLimit.min_size).sum ≤ 8 → r.sum = 8) :=
  adjust_cells_sum_invariant [⟨1, 0, none, ⟨1, 1⟩⟩, ⟨3, 2, none, ⟨1, 1⟩⟩] 8
    (by
      intro c hc
      simp only [List.mem_cons, List.not_mem_nil, or_false] at hc
      rcases hc with rfl | rfl <;> norm_num)
    (by
      intro c hc
      simp only [List.mem_cons, List.not_mem_nil, or_false] at hc
      rcases hc with rfl | rfl <;> simp)

/-- C2 (amended): with positive ratios, nonnegative minimum sizes and no
`max_size` on any cell, when the minimum sizes sum to more than the
target every cell is sized at exactly its `min_size`. A cell with a
binding `max_size` is sized at that maximum instead, as the
counterexample shows. -/
theorem adjust_cells_floor_invariant (limits : List CellLimit) (T : ℚ)
    (hratio : ∀ c ∈ limits, 0 < c.ratio)
    (hmin : ∀ c ∈ limits, 0 ≤ c.min_size)
    (hnone : ∀ c ∈ limits, c.max_size = none)
    (hover : T < (limits.map CellLimit.min_size).sum) :
    adjust_cells limits T = some (limits.map CellLimit.min_size) := by
  obtain ⟨r, hfull, hr⟩ := adjust_cells_isSome limits T hratio
  have hr2 : adjustLoop (limits.length + 1) T
      (unlockedSum (limits.map fun c => ⟨c, false, 0⟩))
      (limits.map fun c => ⟨c, false, 0⟩) = some r := by
    rw [init_unlockedSum]
    exact hr
  have hratio2 : ∀ e ∈ (limits.map fun c => (⟨c, false, 0⟩ : Ent)),
      0 < e.limit.ratio := by
    intro e he
    rcases List.mem_map.mp he with ⟨c, hc, rfl⟩
    exact hratio c hc
  have hmin2 : ∀ e ∈ (limits.map fun c => (⟨c, false, 0⟩ : Ent)),
      0 ≤ e.limit.min_size := by
    intro e he
    rcases List.mem_map.mp he with ⟨c, hc, rfl⟩
    exact hmin c hc
  have hnone2 : ∀ e ∈ (limits.map fun c => (⟨c, false, 0⟩ : Ent)),
      e.limit.max_size = none := by
    intro e he
    rcases List.mem_map.mp he with ⟨c, hc, rfl⟩
    exact hnone c hc
  have hlk2 : ∀ e ∈ (limits.map fun c => (⟨c, false, 0⟩ : Ent)), e.locked = true →
      e.value = e.limit.min_size := by
    intro e he hl
    rcases List.mem_map.mp he with ⟨c, hc, rfl⟩
    simp at hl
  have hfloor := adjustLoop_floor (limits.length + 1) T
    (limits.map fun c => ⟨c, false, 0⟩) r hratio2 hmin2 hnone2 hlk2
    (by rw [init_unlockedMinSum]; exact le_of_lt hover) hr2
  rw [hfull, hfloor]
  simp [List.map_map, Function.comp, CellLimit.min_size]

/-- Witness for C2 (amended): two cells of minimum sizes 5 and 4 at
target 3. -/
theorem adjust_cells_floor_invariant_witness :
    adjust_cells [⟨1, 5, none, ⟨1, 1⟩⟩, ⟨2, 4, none, ⟨1, 1⟩⟩] 3
      = some (([⟨1, 5, none, ⟨1, 1⟩⟩, ⟨2, 4, none, ⟨1, 1⟩⟩] :
          List CellLimit).map CellLimit.min_size) :=
  adjust_cells_floor_invariant [⟨1, 5, none, ⟨1, 1⟩⟩, ⟨2, 4, none, ⟨1, 1⟩⟩] 3
    (by
      intro c hc
      simp only [List.mem_cons, List.not_mem_nil, or_false] at hc
      rcases hc with rfl | rfl <;> norm_num)
    (by
      intro c hc
      simp only [List.mem_cons, List.not_mem_nil, or_false] at hc
      rcases hc with rfl | rfl <;> norm_num)
    (by
      intro c hc
      simp only [List.mem_cons, List.not_mem_nil, or_false] at hc
      rcases hc with rfl | rfl <;> simp)
    (by norm_num)

theorem adjustPass_free (target : ℚ) (cells : List Ent) (s nt : ℚ) (al : Bool) (acc : ℚ)
    (hratio : ∀ e ∈ cells, 0 < e.limit.ratio)
    (hzero : ∀ e ∈ cells, e.limit.min_size = 0)
    (hnone : ∀ e ∈ cells, e.limit.max_size = none)
    (hunlocked : ∀ e ∈ cells, e.locked = false)
    (hacc : 0 ≤ acc) (hs : s = acc + unlockedSum cells) (ht : 0 < target) :
    (adjustPass target cells s nt al).cells
        = cells.map (fun e => ⟨e.limit, false, target * e.limit.ratio / s⟩) ∧
      (adjustPass target cells s nt al).newTarget = nt := by
  induction cells generalizing nt al acc with
  | nil => simp [adjustPass]
  | cons e rest ih =>
    have hratio_e := hratio e (List.mem_cons_self e rest)
    have hzero_e := hzero e (List.mem_cons_self e rest)
    have hnone_e := hnone e (List.mem_cons_self e rest)
    have hunl_e := hunlocked e (List.mem_cons_self e rest)
    have hratio_rest : ∀ x ∈ rest, 0 < x.limit.ratio :=
      fun x hx => hratio x (List.mem_cons_of_mem e hx)
    have hzero_rest : ∀ x ∈ rest, x.limit.min_size = 0 :=
      fun x hx => hzero x (List.mem_cons_of_mem e hx)
    have hnone_rest : ∀ x ∈ rest, x.limit.max_size = none :=
      fun x hx => hnone x (List.mem_cons_of_mem e hx)
    have hunl_rest : ∀ x ∈ rest, x.locked = false :=
      fun x hx => hunlocked x (List.mem_cons_of_mem e hx)
    have husnn := unlockedSum_nonneg rest hratio_rest
    have hl : ¬ e.locked = true := by simp [hunl_e]
    have hsum : unlockedSum (e :: rest) = e.limit.ratio + unlockedSum rest := by
      simp [unlockedSum, hunl_e]
    have hspos : 0 < s := by
      rw [hs, hsum]
      linarith
    have hsharepos : 0 < target * e.limit.ratio / s :=
      div_pos (mul_pos ht hratio_e) hspos
    have hp : ¬ (cellShare target s e.limit).2 = true := by
      rw [cellShare_none_lock_iff target s e.limit hnone_e, hzero_e]
      linarith
    have hv := (cellShare_unlocked target s e.limit (by simpa using hp)).1
    have hs2 : s = (acc + e.limit.ratio) + unlockedSum rest := by
      rw [hs, hsum]
      ring
    obtain ⟨h1, h2⟩ := ih nt false (acc + e.limit.ratio) hratio_rest hzero_rest
      hnone_rest hunl_rest (by linarith) hs2
    simp only [adjustPass, hl, hp, if_false, Bool.false_eq_true, List.map_cons]
    exact ⟨by rw [h1, hv], h2⟩

/-- C8: with no active min/max constraint (zero minimum, no maximum) and
positive ratios, `adjust_cells` returns exactly the proportional shares
`T * ratio / sum(ratio)`; in particular three unit-ratio cells at target
300 give [100, 100, 100], and appending a fourth cell of minimum size 250
and re-solving at 300 gives that cell 250 while the first three each get
50/3 (16.67 within tolerance). -/
theorem adjust_cells_proportionality :
    (∀ (limits : List CellLimit) (T : ℚ), limits ≠ [] →
      (∀ c ∈ limits, 0 < c.ratio) → (∀ c ∈ limits, c.min_size = 0) →
      (∀ c ∈ limits, c.max_size = none) → 0 ≤ T →
      adjust_cells limits T
        = some (limits.map fun c => T * c.ratio / (limits.map CellLimit.ratio).sum)) ∧
    adjust_cells [⟨1, 0, none, ⟨1, 1⟩⟩, ⟨1, 0, none, ⟨1, 1⟩⟩,
        ⟨1, 0, none, ⟨1, 1⟩⟩] 300 = some [100, 100, 100] ∧
    adjust_cells [⟨1, 0, none, ⟨1, 1⟩⟩, ⟨1, 0, none, ⟨1, 1⟩⟩,
        ⟨1, 0, none, ⟨1, 1⟩⟩, ⟨1, 250, none, ⟨1, 1⟩⟩] 300
      = some [50 / 3, 50 / 3, 50 / 3, 250] := by
  refine ⟨?_, ?_, ?_⟩
  · intro limits T hne hratio hzero hnone hT
    have hall : (limits.all fun c => decide (0 < c.ratio)) = true := by
      simp only [List.all_eq_true, decide_eq_true_eq]
      exact hratio
    have hratio2 : ∀ e ∈ (limits.map fun c => (⟨c, false, 0⟩ : Ent)),
        0 < e.limit.ratio := by
      intro e he
      rcases List.mem_map.mp he with ⟨c, hc, rfl⟩
      exact hratio c hc
    have hzero2 : ∀ e ∈ (limits.map fun c => (⟨c, false, 0⟩ : Ent)),
        e.limit.min_size = 0 := by
      intro e he
      rcases List.mem_map.mp he with ⟨c, hc, rfl⟩
      exact hzero c hc
    have hnone2 : ∀ e ∈ (limits.map fun c => (⟨c, false, 0⟩ : Ent)),
        e.limit.max_size = none := by
      intro e he
      rcases List.mem_map.mp he with ⟨c, hc, rfl⟩
      exact hnone c hc
    have hunl2 : ∀ e ∈ (limits.map fun c => (⟨c, false, 0⟩ : Ent)),
        e.locked = false := by
      intro e he
      rcases List.mem_map.mp he with ⟨c, hc, rfl⟩
      rfl
    rcases eq_or_lt_of_le hT with h0 | hpos
    · obtain rfl : T = 0 := h0.symm
      obtain ⟨r, hfull, hr⟩ := adjust_cells_isSome limits 0 hratio
      have hlk2 : ∀ e ∈ (limits.map fun c => (⟨c, false, 0⟩ : Ent)), e.locked = true →
          e.value = e.limit.min_size := by
        intro e he hle
        rcases List.mem_map.mp he with ⟨c, hc, rfl⟩
        simp at hle
      have hmin2 : ∀ e ∈ (limits.map fun c => (⟨c, false, 0⟩ : Ent)),
          0 ≤ e.limit.min_size := by
        intro e he
        rw [hzero2 e he]
      have hr2 : adjustLoop (limits.length + 1) 0
          (unlockedSum (limits.map fun c => ⟨c, false, 0⟩))
          (limits.map fun c => ⟨c, false, 0⟩) = some r := by
        rw [init_unlockedSum]
        exact hr
      have hums0 : unlockedMinSum (limits.map fun c => ⟨c, false, 0⟩) = 0 := by
        rw [init_unlockedMinSum]
        have hmap : limits.map CellLimit.min_size = limits.map fun _ => (0 : ℚ) :=
          List.map_congr_left hzero
        simp [hmap]
      have hfloor := adjustLoop_floor (limits.length + 1) 0
        (limits.map fun c => ⟨c, false, 0⟩) r hratio2 hmin2 hnone2 hlk2
        (by rw [hums0]) hr2
      rw [hfull, hfloor]
      congr 1
      rw [List.map_map]
      refine List.map_congr_left ?_
      intro c hc
      simp [hzero c hc]
    · have hfree := adjustPass_free T (limits.map fun c => ⟨c, false, 0⟩)
        ((limits.map CellLimit.ratio).sum) T true 0 hratio2 hzero2 hnone2 hunl2
        le_rfl (by rw [init_unlockedSum]; ring) hpos
      unfold adjust_cells
      rw [if_pos hall]
      simp only [adjustLoop]
      rw [if_pos (Or.inr hfree.2)]
      rw [hfree.1]
      congr 1
      rw [List.map_map, List.map_map]
      rfl
  · norm_num [adjust_cells, adjustLoop, adjustPass, cellShare]
  · norm_num [adjust_cells, adjustLoop, adjustPass, cellShare]

/-- Witness for C8 at two cells of ratios 1 and 3 at target 8: the shares
are 2 and 6. -/
theorem adjust_cells_proportionality_witness :
    adjust_cells [⟨1, 0, none, ⟨1, 1⟩⟩, ⟨3, 0, none, ⟨1, 1⟩⟩] 8
      = some (([⟨1, 0, none, ⟨1, 1⟩⟩, ⟨3, 0, none, ⟨1, 1⟩⟩] : List CellLimit).map
          fun c => 8 * c.ratio / (([⟨1, 0, none, ⟨1, 1⟩⟩, ⟨3, 0, none, ⟨1, 1⟩⟩] :
            List CellLimit).map CellLimit.ratio).sum) :=
  adjust_cells_proportionality.1 [⟨1, 0, none, ⟨1, 1⟩⟩, ⟨3, 0, none, ⟨1, 1⟩⟩] 8
    (by simp)
    (by
      intro c hc
      simp only [List.mem_cons, List.not_mem_nil, or_false] at hc
      rcases hc with rfl | rfl <;> norm_num)
    (by
      intro c hc
      simp only [List.mem_cons, List.not_mem_nil, or_false] at hc
      rcases hc with rfl | rfl <;> rfl)
    (by
      intro c hc
      simp only [List.mem_cons, List.not_mem_nil, or_false] at hc
      rcases hc with rfl | rfl <;> rfl)
    (by norm_num)

theorem adjustPass_eq_poolPass (target : ℚ) (cells : List Ent) (nt : ℚ) (al : Bool)
    (acc : ℚ) :
    adjustPass target cells (acc + unlockedSum cells) nt al
      = poolPass target cells acc nt al := by
  induction cells generalizing nt al acc with
  | nil => simp [adjustPass, poolPass, unlockedSum]
  | cons e rest ih =>
    by_cases hl : e.locked = true
    · have hu : unlockedSum (e :: rest) = unlockedSum rest := by
        simp [unlockedSum, hl]
      simp only [adjustPass, poolPass, hl, if_true]
      rw [hu, ih]
    · have hu : unlockedSum (e :: rest) = e.limit.ratio + unlockedSum rest := by
        simp [unlockedSum, hl]
      simp only [adjustPass, poolPass, hl, if_false, Bool.false_eq_true]
      rw [hu]
      by_cases hp : (cellShare target (acc + (e.limit.ratio + unlockedSum rest))
          e.limit).2 = true
      · simp only [hp, if_true]
        have h1 : acc + (e.limit.ratio + unlockedSum rest) - e.limit.ratio
            = acc + unlockedSum rest := by ring
        rw [h1, ih]
      · simp only [hp, if_false, Bool.false_eq_true]
        have h1 : acc + (e.limit.ratio + unlockedSum rest)
            = (acc + e.limit.ratio) + unlockedSum rest := by ring
        rw [h1, ih]

theorem adjustLoop_eq_pool (fuel : Nat) :
    ∀ (target : ℚ) (cells : List Ent),
      adjustLoop fuel target (unlockedSum cells) cells
        = adjustLoopPool fuel target cells := by
  induction fuel with
  | zero => intro _ _; rfl
  | succ f ih =>
    intro target cells
    have hpass : adjustPass target cells (unlockedSum cells) target true
        = poolPass target cells 0 target true := by
      have := adjustPass_eq_poolPass target cells target true 0
      rwa [zero_add] at this
    have hsr : (adjustPass target cells (unlockedSum cells) target true).sumRatio
        = unlockedSum (adjustPass target cells (unlockedSum cells) target true).cells := by
      have := adjustPass_sumRatio target cells (unlockedSum cells) target true
      linarith
    simp only [adjustLoop, adjustLoopPool]
    rw [← hpass]
    split
    · rfl
    · rw [hsr]
      exact ih _ _

/-- C3 (amended): within one pass of `adjust_cells` every tentative share
is computed from the pass-start remaining target, but the unlocked-ratio
sum is updated the moment a cell locks, so a cell locking earlier in a
pass enlarges the share computed for later cells of the same pass:
`adjust_cells` coincides with the formulation that recomputes the
unlocked-ratio pool from the current lock state at every cell
(`adjust_cells_pool`), not with the between-passes reference
formulation (`adjust_cells_ref`), from which it differs. -/
theorem adjust_cells_eq_pool (limits : List CellLimit) (target : ℚ) :
    adjust_cells limits target = adjust_cells_pool limits target := by
  unfold adjust_cells adjust_cells_pool
  split_ifs with h
  · rw [← init_unlockedSum]
    exact adjustLoop_eq_pool (limits.length + 1) target
      (limits.map fun c => ⟨c, false, 0⟩)
  · rfl

/-- C4 (amended): when a cursor position is recorded, dispatching a
`MouseInput` on a ribbon delivers one `MouseInput` event to EVERY cell,
whose `in_slot` flag is true exactly when the position translated into
that cell's local coordinates lies within the cell's (inclusive) bounds;
with no recorded position no cell receives anything. The incoming event
is re-emitted unchanged either way. -/
theorem ribbon_mouse_input_flagged_broadcast :
    (∀ (r : Ribbon) (mp : Vector2) (b : Bool) (st : ElementState) (btn : MouseButton),
      r.mouse_pos = some mp →
      Ribbon.on_event r (PanelEvent.MouseInput b st btn)
        = some (r,
            r.cells.enum.map fun p =>
              (p.1, PanelEvent.MouseInput
                (is_translated_point_in_box (p.2.translate_point mp) p.2.size) st btn),
            [PanelEvent.MouseInput b st btn])) ∧
    (∀ (r : Ribbon) (b : Bool) (st : ElementState) (btn : MouseButton),
      r.mouse_pos = none →
      Ribbon.on_event r (PanelEvent.MouseInput b st btn)
        = some (r, [], [PanelEvent.MouseInput b st btn])) := by
  constructor
  · intro r mp b st btn h
    simp only [Ribbon.on_event, Ribbon.translate_slot_event_mouse_input, h,
      Cell.is_translated_point_in_cell]
  · intro r b st btn h
    simp only [Ribbon.on_event, Ribbon.translate_slot_event_mouse_input, h]

/-- Witness for C4 (amended): the two-cell example ribbon with the cursor
at (5,5) delivers a flagged `MouseInput` to both cells. -/
theorem ribbon_mouse_input_flagged_broadcast_witness :
    mouseRibbonExample.mouse_pos = some ⟨5, 5⟩ ∧
      Ribbon.on_event mouseRibbonExample
          (PanelEvent.MouseInput false ElementState.Released MouseButton.Right)
        = some (mouseRibbonExample,
            mouseRibbonExample.cells.enum.map fun p =>
              (p.1, PanelEvent.MouseInput
                (is_translated_point_in_box (p.2.translate_point ⟨5, 5⟩) p.2.size)
                ElementState.Released MouseButton.Right),
            [PanelEvent.MouseInput false ElementState.Released MouseButton.Right]) :=
  ⟨rfl, ribbon_mouse_input_flagged_broadcast.1 mouseRibbonExample ⟨5, 5⟩ false
    ElementState.Released MouseButton.Right rfl⟩

theorem placeCells_length (hor : Bool) (size : Vector2) :
    ∀ (pos : ℚ) (cs : List Cell) (szs : List ℚ), szs.length = cs.length →
      (placeCells hor size pos cs szs).length = cs.length := by
  intro pos cs
  induction cs generalizing pos with
  | nil => intro szs _; rfl
  | cons c cs ih =>
    intro szs hlen
    cases szs with
    | nil => simp at hlen
    | cons sz szs =>
      simp only [placeCells, List.length_cons] at *
      rw [ih _ _ (by omega)]

theorem adjust_cells_length (limits : List CellLimit) (T : ℚ) (r : List ℚ)
    (h : adjust_cells limits T = some r) : r.length = limits.length := by
  unfold adjust_cells at h
  split_ifs at h
  have := adjustLoop_length (limits.length + 1) T
    ((limits.map CellLimit.ratio).sum) (limits.map fun c => ⟨c, false, 0⟩) r h
  simpa using this

theorem resize_cells_size (rb : Ribbon) (size : Vector2) (r' : Ribbon)
    (h : rb.resize_cells size = some r') : r'.size = size := by
  unfold Ribbon.resize_cells at h
  split_ifs at h
  · simp only [Option.some.injEq] at h
    rw [← h]
  all_goals
    split at h
    · simp at h
    · simp only [Option.some.injEq] at h
      rw [← h]

theorem resize_cells_length (rb : Ribbon) (size : Vector2) (r' : Ribbon)
    (h : rb.resize_cells size = some r') : r'.cells.length = rb.cells.length := by
  unfold Ribbon.resize_cells at h
  split_ifs at h
  · simp only [Option.some.injEq] at h
    rw [← h]
    simp
  all_goals
    split at h
    · simp at h
    · rename_i sizes hsz
      simp only [Option.some.injEq] at h
      rw [← h]
      simp only
      apply placeCells_length
      have := adjust_cells_length (rb.cells.map Cell.limit) _ sizes hsz
      simpa using this

/-- C7: dispatching `Resized(size)` on a ribbon sets the ribbon's own
size to `size`, applies the new layout, and then delivers exactly one
`Resized` event to each cell carrying that cell's own post-layout size;
a layer stack sets its own size and delivers exactly one `Resized` to
every layer, carrying the full (stack-wide) size that each full-size
layer assumes after the resize. -/
theorem resized_broadcast_post_layout :
    (∀ (rb r' : Ribbon) (size : Vector2) (ds : List (Nat × PanelEvent))
        (em : List PanelEvent),
      Ribbon.on_event rb (PanelEvent.Resized size) = some (r', ds, em) →
      r'.size = size ∧
        ds = r'.cells.enum.map (fun p => (p.1, PanelEvent.Resized p.2.size)) ∧
        ds.length = rb.cells.length) ∧
    (∀ (ls : LayerStack) (size : Vector2),
      LayerStack.on_event ls (PanelEvent.Resized size)
        = ({ ls with size := size },
            ls.layers.map fun p => (p, PanelEvent.Resized size),
            [PanelEvent.Resized size])) := by
  constructor
  · intro rb r' size ds em h
    simp only [Ribbon.on_event, Ribbon.translate_panel_event_resized] at h
    rcases hres : rb.resize_cells size with _ | r''
    · rw [hres] at h
      simp at h
    · rw [hres] at h
      simp only [Option.some.injEq, Prod.mk.injEq] at h
      obtain ⟨h1, h2, _⟩ := h
      subst h1
      refine ⟨resize_cells_size rb size r'' hres, h2.symm, ?_⟩
      rw [← h2]
      simp [resize_cells_length rb size r'' hres]
  · intro ls size
    rfl

/-- The layout the two-cell example ribbon reaches after a resize to
(30, 10): each cell 15 wide, placed contiguously. -/
def resizedRibbonResult : Ribbon :=
  ⟨RibbonOrientation.Horizontal, ⟨30, 10⟩,
    [⟨⟨1, 0, none, ⟨1, 1⟩⟩, ⟨0, 0⟩, ⟨15, 10⟩⟩,
     ⟨⟨1, 0, none, ⟨1, 1⟩⟩, ⟨15, 0⟩, ⟨15, 10⟩⟩],
    some ⟨5, 5⟩⟩

/-- Witness for C7: resizing the example ribbon to (30, 10) delivers each
cell a `Resized` event carrying its own 15-wide post-layout size. -/
theorem resized_broadcast_post_layout_witness :
    resizedRibbonResult.size = (⟨30, 10⟩ : Vector2) ∧
      ([(0, PanelEvent.Resized ⟨15, 10⟩), (1, PanelEvent.Resized ⟨15, 10⟩)] :
          List (Nat × PanelEvent))
        = resizedRibbonResult.cells.enum.map
            (fun p => (p.1, PanelEvent.Resized p.2.size)) ∧
      ([(0, PanelEvent.Resized ⟨15, 10⟩), (1, PanelEvent.Resized ⟨15, 10⟩)] :
          List (Nat × PanelEvent)).length = mouseRibbonExample.cells.length :=
  resized_broadcast_post_layout.1 mouseRibbonExample resizedRibbonResult ⟨30, 10⟩
    [(0, PanelEvent.Resized ⟨15, 10⟩), (1, PanelEvent.Resized ⟨15, 10⟩)]
    [PanelEvent.Resized ⟨30, 10⟩]
    (by
      norm_num [mouseRibbonExample, resizedRibbonResult, Ribbon.on_event,
        Ribbon.translate_panel_event_resized, Ribbon.resize_cells, placeCells,
        adjust_cells, adjustLoop, adjustPass, cellShare, List.enum, List.enumFrom]
      rfl)

/-- C9: after internal routing both containers re-emit the unmodified
inbound event on their own event stream; a ribbon whose routing fails
with an error emits nothing (the `none` case), and a layer stack always
re-emits. -/
theorem on_event_reemits_unmodified :
    (∀ (rb r' : Ribbon) (ev : PanelEvent) (ds : List (Nat × PanelEvent))
        (em : List PanelEvent),
      Ribbon.on_event rb ev = some (r', ds, em) → em = [ev]) ∧
    (∀ (ls : LayerStack) (ev : PanelEvent),
      (LayerStack.on_event ls ev).2.2 = [ev]) := by
  constructor
  · intro rb r' ev ds em h
    cases ev with
    | Resized size =>
      simp only [Ribbon.on_event] at h
      rcases hres : rb.translate_panel_event_resized size with _ | p
      · rw [hres] at h
        simp at h
      · rw [hres] at h
        simp only [Option.some.injEq, Prod.mk.injEq] at h
        exact h.2.2.symm
    | CursorMoved mp =>
      simp only [Ribbon.on_event, Option.some.injEq, Prod.mk.injEq] at h
      exact h.2.2.symm
    | MouseInput b st btn =>
      simp only [Ribbon.on_event, Option.some.injEq, Prod.mk.injEq] at h
      exact h.2.2.symm
    | Empty =>
      simp only [Ribbon.on_event, Option.some.injEq, Prod.mk.injEq] at h
      exact h.2.2.symm
  · intro ls ev
    rfl

/-- Witness for C9: the example ribbon re-emits an `Empty` event
unchanged after broadcasting it. -/
theorem on_event_reemits_unmodified_witness :
    Ribbon.on_event mouseRibbonExample PanelEvent.Empty
        = some (mouseRibbonExample,
            mouseRibbonExample.translate_panel_event_default PanelEvent.Empty,
            [PanelEvent.Empty]) ∧
      ([PanelEvent.Empty] : List PanelEvent) = [PanelEvent.Empty] :=
  ⟨rfl, on_event_reemits_unmodified.1 mouseRibbonExample mouseRibbonExample
    PanelEvent.Empty
    (mouseRibbonExample.translate_panel_event_default PanelEvent.Empty)
    [PanelEvent.Empty] rfl⟩

end Awgur
